import Mathlib

/-!
Verification of the news.adayroi.jp scraper pipeline.

This file gives a shallow embedding, in Lean 4, of the string- and
file-manipulating core of the pipeline (`src/utils/file.py`,
`src/core/image.py`, `src/core/gemini.py`, `src/utils/log.py`,
`src/pipeline.py`) and proves or refutes the frozen claims about it.

Strings are embedded as `List Char` (`Str`).  Python's `str.replace` and
substring counting are embedded as `replaceAll` and `countOccs`: a single
left-to-right pass replacing non-overlapping occurrences, exactly the CPython
semantics for non-empty patterns (every pattern used by the program is
non-empty).  Both are written with an explicit fuel argument equal to the
string length so that they are structurally recursive and evaluate inside the
kernel; fuel-irrelevance lemmas recover the natural recursion equations.

The file system is embedded as an association list from path to content;
fallible writes are modelled by an explicit success flag, and Python
exceptions by `Except` / an aborting result, mirroring where the source
raises and where it catches.
-/

set_option maxHeartbeats 1000000

abbrev Str := List Char

/-- Non-overlapping left-to-right replacement with explicit fuel.
With fuel at least the length of the string this is Python's
`str.replace(p, r)` for a non-empty pattern `p`. -/
def replaceAux (p r : Str) : Nat → Str → Str
  | 0, s => s
  | _ + 1, [] => []
  | fuel + 1, c :: s =>
    if p.isPrefixOf (c :: s) ∧ p ≠ [] then
      r ++ replaceAux p r fuel (List.drop (p.length - 1) s)
    else
      c :: replaceAux p r fuel s

/-- Python's `str.replace(p, r)` (all non-overlapping occurrences,
left to right), for the non-empty patterns used by the program. -/
def replaceAll (p r s : Str) : Str := replaceAux p r s.length s

/-- Non-overlapping occurrence counting with explicit fuel. -/
def countAux (p : Str) : Nat → Str → Nat
  | 0, _ => 0
  | _ + 1, [] => 0
  | fuel + 1, c :: s =>
    if p.isPrefixOf (c :: s) ∧ p ≠ [] then
      1 + countAux p fuel (List.drop (p.length - 1) s)
    else
      countAux p fuel s

/-- Python's `str.count(p)`: number of non-overlapping occurrences of `p`,
scanned left to right. -/
def countOccs (p s : Str) : Nat := countAux p s.length s

theorem prefixOf_iff {p s : Str} : p.isPrefixOf s = true ↔ p <+: s :=
  List.isPrefixOf_iff_prefix

theorem replaceAux_fuel (p r : Str) :
    ∀ (f₁ : Nat) (s : Str) (f₂ : Nat), s.length ≤ f₁ → s.length ≤ f₂ →
      replaceAux p r f₁ s = replaceAux p r f₂ s := by
  intro f₁
  induction f₁ with
  | zero =>
    intro s f₂ h₁ _
    have hs : s = [] := List.eq_nil_of_length_eq_zero (Nat.le_zero.mp h₁)
    subst hs
    cases f₂ <;> simp [replaceAux]
  | succ f ih =>
    intro s f₂ h₁ h₂
    cases s with
    | nil => cases f₂ <;> simp [replaceAux]
    | cons c s =>
      cases f₂ with
      | zero => simp at h₂
      | succ f₂ =>
        simp only [replaceAux]
        by_cases hc : p.isPrefixOf (c :: s) ∧ p ≠ []
        · rw [if_pos hc, if_pos hc]
          have hdl : (List.drop (p.length - 1) s).length ≤ s.length := by
            simp [List.length_drop]
          have hl : s.length ≤ f := Nat.succ_le_succ_iff.mp h₁
          have hl₂ : s.length ≤ f₂ := Nat.succ_le_succ_iff.mp h₂
          rw [ih _ _ (le_trans hdl hl) (le_trans hdl hl₂)]
        · rw [if_neg hc, if_neg hc]
          rw [ih _ _ (Nat.succ_le_succ_iff.mp h₁) (Nat.succ_le_succ_iff.mp h₂)]

theorem countAux_fuel (p : Str) :
    ∀ (f₁ : Nat) (s : Str) (f₂ : Nat), s.length ≤ f₁ → s.length ≤ f₂ →
      countAux p f₁ s = countAux p f₂ s := by
  intro f₁
  induction f₁ with
  | zero =>
    intro s f₂ h₁ _
    have hs : s = [] := List.eq_nil_of_length_eq_zero (Nat.le_zero.mp h₁)
    subst hs
    cases f₂ <;> simp [countAux]
  | succ f ih =>
    intro s f₂ h₁ h₂
    cases s with
    | nil => cases f₂ <;> simp [countAux]
    | cons c s =>
      cases f₂ with
      | zero => simp at h₂
      | succ f₂ =>
        simp only [countAux]
        by_cases hc : p.isPrefixOf (c :: s) ∧ p ≠ []
        · rw [if_pos hc, if_pos hc]
          have hdl : (List.drop (p.length - 1) s).length ≤ s.length := by
            simp [List.length_drop]
          have hl : s.length ≤ f := Nat.succ_le_succ_iff.mp h₁
          have hl₂ : s.length ≤ f₂ := Nat.succ_le_succ_iff.mp h₂
          rw [ih _ _ (le_trans hdl hl) (le_trans hdl hl₂)]
        · rw [if_neg hc, if_neg hc]
          rw [ih _ _ (Nat.succ_le_succ_iff.mp h₁) (Nat.succ_le_succ_iff.mp h₂)]

theorem replaceAll_nil (p r : Str) : replaceAll p r [] = [] := rfl

theorem countOccs_nil (p : Str) : countOccs p [] = 0 := rfl

theorem replaceAll_cons_pos {p : Str} (r : Str) {c : Char} {s : Str}
    (hp : p ≠ []) (h : p <+: (c :: s)) :
    replaceAll p r (c :: s) = r ++ replaceAll p r (List.drop (p.length - 1) s) := by
  have hb : p.isPrefixOf (c :: s) = true := prefixOf_iff.mpr h
  show replaceAux p r (s.length + 1) (c :: s) = _
  simp only [replaceAux, if_pos (And.intro hb hp)]
  congr 1
  apply replaceAux_fuel
  · simp [List.length_drop]
  · exact le_refl _

theorem replaceAll_cons_neg {p : Str} (r : Str) {c : Char} {s : Str}
    (h : ¬ p <+: (c :: s)) :
    replaceAll p r (c :: s) = c :: replaceAll p r s := by
  have hb : ¬ (p.isPrefixOf (c :: s) = true ∧ p ≠ []) := by
    intro hc
    exact h (prefixOf_iff.mp hc.1)
  show replaceAux p r (s.length + 1) (c :: s) = _
  simp only [replaceAux, if_neg hb]
  rfl

theorem countOccs_cons_pos {p : Str} {c : Char} {s : Str}
    (hp : p ≠ []) (h : p <+: (c :: s)) :
    countOccs p (c :: s) = 1 + countOccs p (List.drop (p.length - 1) s) := by
  have hb : p.isPrefixOf (c :: s) = true := prefixOf_iff.mpr h
  show countAux p (s.length + 1) (c :: s) = _
  simp only [countAux, if_pos (And.intro hb hp)]
  congr 1
  apply countAux_fuel
  · simp [List.length_drop]
  · exact le_refl _

theorem countOccs_cons_neg {p : Str} {c : Char} {s : Str}
    (h : ¬ p <+: (c :: s)) :
    countOccs p (c :: s) = countOccs p s := by
  have hb : ¬ (p.isPrefixOf (c :: s) = true ∧ p ≠ []) := by
    intro hc
    exact h (prefixOf_iff.mp hc.1)
  show countAux p (s.length + 1) (c :: s) = _
  simp only [countAux, if_neg hb]
  rfl

theorem replaceAll_head {p : Str} (r : Str) (s : Str) (hp : p ≠ []) :
    replaceAll p r (p ++ s) = r ++ replaceAll p r s := by
  cases p with
  | nil => exact absurd rfl hp
  | cons c t =>
    have h : (c :: t) <+: (c :: (t ++ s)) := ⟨s, by simp⟩
    rw [show ((c :: t) ++ s) = c :: (t ++ s) by simp, replaceAll_cons_pos r hp h]
    congr 2
    simp [List.drop_left]

theorem countOccs_head {p : Str} (s : Str) (hp : p ≠ []) :
    countOccs p (p ++ s) = 1 + countOccs p s := by
  cases p with
  | nil => exact absurd rfl hp
  | cons c t =>
    have h : (c :: t) <+: (c :: (t ++ s)) := ⟨s, by simp⟩
    rw [show ((c :: t) ++ s) = c :: (t ++ s) by simp, countOccs_cons_pos hp h]
    congr 2
    simp [List.drop_left]

/-- No occurrence of `p` starts inside `a` when `a` is followed by `x`
(neither fully inside `a` nor crossing the `a`/`x` boundary). -/
def NoMatch (p a x : Str) : Prop :=
  ∀ t, t <:+ a → t ≠ [] → ¬ p <+: (t ++ x)

/-- Every occurrence of `p` that starts inside `a` (when `a` is followed by
`x`) lies entirely inside `a`. -/
def NoCross (p a x : Str) : Prop :=
  ∀ t, t <:+ a → t ≠ [] → p <+: (t ++ x) → p <+: t

theorem noMatch_suffix {p a x : Str} (h : NoMatch p a x) {a' : Str}
    (ha : a' <:+ a) : NoMatch p a' x :=
  fun t ht hne => h t (List.IsSuffix.trans ht ha) hne

theorem noCross_suffix {p a x : Str} (h : NoCross p a x) {a' : Str}
    (ha : a' <:+ a) : NoCross p a' x :=
  fun t ht hne => h t (List.IsSuffix.trans ht ha) hne

theorem replaceAll_append_left {p : Str} (r : Str) {a x : Str}
    (h : NoMatch p a x) : replaceAll p r (a ++ x) = a ++ replaceAll p r x := by
  induction a with
  | nil => simp
  | cons c a ih =>
    have hne : ¬ p <+: (c :: (a ++ x)) := by
      have := h (c :: a) (List.suffix_refl _) (by simp)
      simpa using this
    rw [show ((c :: a) ++ x) = c :: (a ++ x) by simp, replaceAll_cons_neg r hne]
    rw [ih (noMatch_suffix h (List.suffix_cons c a))]
    simp

theorem countOccs_eq_zero {p a : Str}
    (h : ∀ t, t <:+ a → t ≠ [] → ¬ p <+: t) : countOccs p a = 0 := by
  induction a with
  | nil => rfl
  | cons c a ih =>
    have hne : ¬ p <+: (c :: a) := h (c :: a) (List.suffix_refl _) (by simp)
    rw [countOccs_cons_neg hne]
    exact ih (fun t ht htne => h t (List.IsSuffix.trans ht (List.suffix_cons c a)) htne)

theorem countOccs_append_left {p : Str} {a x : Str}
    (h : NoMatch p a x) : countOccs p (a ++ x) = countOccs p x := by
  induction a with
  | nil => simp
  | cons c a ih =>
    have hne : ¬ p <+: (c :: (a ++ x)) := by
      have := h (c :: a) (List.suffix_refl _) (by simp)
      simpa using this
    rw [show ((c :: a) ++ x) = c :: (a ++ x) by simp, countOccs_cons_neg hne]
    exact ih (noMatch_suffix h (List.suffix_cons c a))

theorem countOccs_append_aux (p x : Str) (hp : p ≠ []) :
    ∀ (n : Nat) (a : Str), a.length ≤ n → NoCross p a x →
      countOccs p (a ++ x) = countOccs p a + countOccs p x := by
  intro n
  induction n with
  | zero =>
    intro a ha _
    have : a = [] := List.eq_nil_of_length_eq_zero (Nat.le_zero.mp ha)
    subst this
    simp [countOccs_nil]
  | succ n ih =>
    intro a ha hcross
    cases a with
    | nil => simp [countOccs_nil]
    | cons c a =>
      have han : a.length ≤ n := by
        simp only [List.length_cons] at ha
        omega
      by_cases hpre : p <+: (c :: (a ++ x))
      · have hpre' : p <+: ((c :: a) ++ x) := by simpa using hpre
        have hta : p <+: (c :: a) :=
          hcross (c :: a) (List.suffix_refl _) (by simp) hpre'
        have hlen : p.length ≤ a.length + 1 := by
          simpa using List.IsPrefix.length_le hta
        rw [show ((c :: a) ++ x) = c :: (a ++ x) by simp,
          countOccs_cons_pos hp hpre, countOccs_cons_pos hp hta]
        have hdl : p.length - 1 ≤ a.length := by omega
        rw [List.drop_append_of_le_length hdl]
        have hlen2 : (List.drop (p.length - 1) a).length ≤ n := by
          simp only [List.length_drop]
          omega
        have hsub : List.drop (p.length - 1) a <:+ (c :: a) :=
          List.IsSuffix.trans (List.drop_suffix _ _) (List.suffix_cons c a)
        rw [ih _ hlen2 (noCross_suffix hcross hsub)]
        omega
      · have hta : ¬ p <+: (c :: a) := by
          intro hcon
          exact hpre (by simpa using List.IsPrefix.trans hcon (List.prefix_append (c :: a) x))
        rw [show ((c :: a) ++ x) = c :: (a ++ x) by simp,
          countOccs_cons_neg hpre, countOccs_cons_neg hta]
        have hsub : a <:+ (c :: a) := List.suffix_cons c a
        exact ih a han (noCross_suffix hcross hsub)

theorem countOccs_append {p a x : Str} (hp : p ≠ []) (h : NoCross p a x) :
    countOccs p (a ++ x) = countOccs p a + countOccs p x :=
  countOccs_append_aux p x hp a.length a (le_refl _) h

/-- If a nonempty suffix of `a` shorter than `p` can never be completed by
`x` to an occurrence of `p`, then no occurrence crosses the boundary. -/
theorem noCross_of_short {p a x : Str}
    (h : ∀ t, t <:+ a → t ≠ [] → t.length < p.length → t <+: p →
      ¬ (List.drop t.length p <+: x)) :
    NoCross p a x := by
  intro t ht htne hpre
  by_cases hl : p.length ≤ t.length
  · exact (List.isPrefix_append_of_length hl).mp hpre
  · exfalso
    push_neg at hl
    have htp : t <+: p :=
      List.prefix_of_prefix_length_le (List.prefix_append t x) hpre (le_of_lt hl)
    obtain ⟨u, hu⟩ := id htp
    have hdrop : List.drop t.length p = u := by
      rw [← hu]
      simp [List.drop_left]
    have hux : u <+: x := by
      have : (t ++ u) <+: (t ++ x) := by rw [hu]; exact hpre
      exact (List.prefix_append_right_inj t).mp this
    exact h t ht htne hl htp (hdrop ▸ hux)

/-- `NoMatch` from `NoCross` plus the absence of `p` inside `a`. -/
theorem noMatch_of_noCross {p a x : Str} (hin : ¬ p <:+: a)
    (h : NoCross p a x) : NoMatch p a x := by
  intro t ht htne hpre
  have := h t ht htne hpre
  exact hin (List.IsInfix.trans (List.IsPrefix.isInfix this) (List.IsSuffix.isInfix ht))

/-! ### Heading tags and the merge engine (`merge_html_file`)

`merge_html_file` demotes headings with the textual loop

    for i in range(5, 0, -1):
        merged_html_content = merged_html_content.replace(
            f"<h{i}>", f"<h{i+1}>").replace(f"</h{i}>", f"</h{i+1}>")

To reason about it we describe HTML bodies as alternations of heading tags
and tag-free segments (`render`), and track the textual replacements on that
shape. -/

/-- The digit produced by Python's `str(i)` for the loop indices `1..6`. -/
def digChar : Nat → Char
  | 1 => '1'
  | 2 => '2'
  | 3 => '3'
  | 4 => '4'
  | 5 => '5'
  | 6 => '6'
  | _ => '*'

/-- An opening (`op`) or closing (`cl`) heading tag of a given level. -/
inductive Tag where
  | op : Nat → Tag
  | cl : Nat → Tag
deriving DecidableEq

/-- The exact text of a heading tag: `<hN>` or `</hN>`. -/
def tagStr : Tag → Str
  | Tag.op n => ['<', 'h', digChar n, '>']
  | Tag.cl n => ['<', '/', 'h', digChar n, '>']

/-- Heading levels occurring in real HTML bodies: 1 to 6. -/
def validTag : Tag → Prop
  | Tag.op n => 1 ≤ n ∧ n ≤ 6
  | Tag.cl n => 1 ≤ n ∧ n ≤ 6

/-- A heading-free piece of text: it contains neither `<h` nor `</h`,
so no heading tag and no fragment able to combine into one. -/
def hFree (s : Str) : Prop :=
  ¬ (['<', 'h'] <:+: s) ∧ ¬ (['<', '/', 'h'] <:+: s)

instance (s : Str) : Decidable (hFree s) := by
  unfold hFree
  infer_instance

/-- A body as a leading segment followed by alternating tags and segments. -/
def render : Str → List (Tag × Str) → Str
  | s0, [] => s0
  | s0, (t, s) :: rest => s0 ++ (tagStr t ++ render s rest)

/-- Well-formedness of a `render` description: all segments are
heading-free and all tags have levels 1..6. -/
def Wf (s0 : Str) (l : List (Tag × Str)) : Prop :=
  hFree s0 ∧ ∀ q ∈ l, validTag q.1 ∧ hFree q.2

theorem digChar_ne {n : Nat} (h1 : 1 ≤ n) (h6 : n ≤ 6) :
    digChar n ≠ '<' ∧ digChar n ≠ '>' ∧ digChar n ≠ 'h' ∧ digChar n ≠ '/' := by
  interval_cases n <;> simp [digChar]

theorem digChar_inj {m n : Nat} (hm1 : 1 ≤ m) (hm6 : m ≤ 6) (hn1 : 1 ≤ n)
    (hn6 : n ≤ 6) (h : digChar m = digChar n) : m = n := by
  interval_cases m <;> interval_cases n <;> simp_all [digChar]

theorem tagStr_ne_nil (t : Tag) : tagStr t ≠ [] := by
  cases t <;> simp [tagStr]

theorem tagStr_head (t : Tag) (y : Str) : ∃ z, tagStr t ++ y = '<' :: z := by
  cases t <;> exact ⟨_, rfl⟩

/-- The closing `<h`-prefixed patterns never begin inside a heading-free
segment and run into text starting with `<` (or into nothing): an opening
tag pattern. -/
theorem noMatch_opTag {d : Char} {a x : Str} (ha : hFree a)
    (hx : x = [] ∨ ∃ z, x = '<' :: z) :
    NoMatch ['<', 'h', d, '>'] a x := by
  intro t ht htne hpre
  rcases t with _ | ⟨c1, t1⟩
  · exact htne rfl
  obtain ⟨hc1, hpre1⟩ := List.cons_prefix_cons.mp hpre
  subst hc1
  rcases t1 with _ | ⟨c2, t2⟩
  · -- the suffix is just "<", so "h d >" must begin x
    rcases hx with hx | ⟨z, hx⟩ <;> subst hx
    · simp at hpre1
    · obtain ⟨hc, _⟩ := List.cons_prefix_cons.mp hpre1
      simp at hc
  · obtain ⟨hc2, _⟩ := List.cons_prefix_cons.mp hpre1
    subst hc2
    -- the suffix starts with "<h", contradicting heading-freeness of `a`
    exact ha.1 (List.IsInfix.trans
      (List.IsPrefix.isInfix (⟨t2, rfl⟩ : ['<', 'h'] <+: ('<' :: 'h' :: t2)))
      (List.IsSuffix.isInfix ht))

/-- Same for a closing tag pattern. -/
theorem noMatch_clTag {d : Char} {a x : Str} (ha : hFree a)
    (hx : x = [] ∨ ∃ z, x = '<' :: z) :
    NoMatch ['<', '/', 'h', d, '>'] a x := by
  intro t ht htne hpre
  rcases t with _ | ⟨c1, t1⟩
  · exact htne rfl
  obtain ⟨hc1, hpre1⟩ := List.cons_prefix_cons.mp hpre
  subst hc1
  rcases t1 with _ | ⟨c2, t2⟩
  · rcases hx with hx | ⟨z, hx⟩ <;> subst hx
    · simp at hpre1
    · obtain ⟨hc, _⟩ := List.cons_prefix_cons.mp hpre1
      simp at hc
  · obtain ⟨hc2, hpre2⟩ := List.cons_prefix_cons.mp hpre1
    subst hc2
    rcases t2 with _ | ⟨c3, t3⟩
    · -- the suffix is "</", so "h d >" must begin x
      rcases hx with hx | ⟨z, hx⟩ <;> subst hx
      · simp at hpre2
      · obtain ⟨hc, _⟩ := List.cons_prefix_cons.mp hpre2
        simp at hc
    · obtain ⟨hc3, _⟩ := List.cons_prefix_cons.mp hpre2
      subst hc3
      -- the suffix starts with "</h", contradicting heading-freeness of `a`
      exact ha.2 (List.IsInfix.trans
        (List.IsPrefix.isInfix (⟨t3, rfl⟩ : ['<', '/', 'h'] <+: ('<' :: '/' :: 'h' :: t3)))
        (List.IsSuffix.isInfix ht))

/-- A heading tag pattern never begins inside a heading-free segment. -/
theorem noMatch_tag_seg {tg : Tag} {a x : Str} (hv : validTag tg)
    (ha : hFree a) (hx : x = [] ∨ ∃ z, x = '<' :: z) :
    NoMatch (tagStr tg) a x := by
  cases tg with
  | op n => exact noMatch_opTag ha hx
  | cl n => exact noMatch_clTag ha hx

/-- The suffixes of an opening tag's text. -/
theorem suffix_opTag {d : Char} {t : Str} (h : t <:+ ['<', 'h', d, '>']) :
    t = [] ∨ t = ['>'] ∨ t = [d, '>'] ∨ t = ['h', d, '>'] ∨ t = ['<', 'h', d, '>'] := by
  have hm := (List.mem_tails t ['<', 'h', d, '>']).mpr h
  simp only [List.tails, List.mem_cons, List.mem_singleton, List.not_mem_nil, or_false] at hm
  tauto

/-- The suffixes of a closing tag's text. -/
theorem suffix_clTag {d : Char} {t : Str} (h : t <:+ ['<', '/', 'h', d, '>']) :
    t = [] ∨ t = ['>'] ∨ t = [d, '>'] ∨ t = ['h', d, '>'] ∨ t = ['/', 'h', d, '>'] ∨
      t = ['<', '/', 'h', d, '>'] := by
  have hm := (List.mem_tails t ['<', '/', 'h', d, '>']).mpr h
  simp only [List.tails, List.mem_cons, List.mem_singleton, List.not_mem_nil, or_false] at hm
  tauto

/-- A heading tag pattern never begins inside the text of a *different*
heading tag, whatever follows it. -/
theorem noMatch_tag_tag {ta tb : Tag} (hva : validTag ta) (hvb : validTag tb)
    (hne : ta ≠ tb) (x : Str) : NoMatch (tagStr ta) (tagStr tb) x := by
  intro t ht htne hpre
  cases tb with
  | op e =>
    obtain ⟨he1, he6⟩ := hvb
    have hde := digChar_ne he1 he6
    rcases suffix_opTag (show t <:+ ['<', 'h', digChar e, '>'] by simpa [tagStr] using ht) with
      h | h | h | h | h
    case _ => exact htne h
    case _ =>
      subst h
      cases ta <;> simp [tagStr, List.cons_prefix_cons] at hpre
    case _ =>
      subst h
      cases ta with
      | op m =>
        simp only [tagStr, List.cons_append, List.cons_prefix_cons] at hpre
        exact hde.1 hpre.1.symm
      | cl m =>
        simp only [tagStr, List.cons_append, List.cons_prefix_cons] at hpre
        exact hde.1 hpre.1.symm
    case _ =>
      subst h
      cases ta <;> simp [tagStr, List.cons_prefix_cons] at hpre
    case _ =>
      subst h
      cases ta with
      | op m =>
        obtain ⟨hm1, hm6⟩ := hva
        simp only [tagStr, List.cons_append, List.cons_prefix_cons] at hpre
        exact hne (by rw [digChar_inj hm1 hm6 he1 he6 hpre.2.2.1])
      | cl m =>
        simp [tagStr, List.cons_prefix_cons] at hpre
  | cl e =>
    obtain ⟨he1, he6⟩ := hvb
    have hde := digChar_ne he1 he6
    rcases suffix_clTag (show t <:+ ['<', '/', 'h', digChar e, '>'] by simpa [tagStr] using ht) with
      h | h | h | h | h | h
    case _ => exact htne h
    case _ =>
      subst h
      cases ta <;> simp [tagStr, List.cons_prefix_cons] at hpre
    case _ =>
      subst h
      cases ta with
      | op m =>
        simp only [tagStr, List.cons_append, List.cons_prefix_cons] at hpre
        exact hde.1 hpre.1.symm
      | cl m =>
        simp only [tagStr, List.cons_append, List.cons_prefix_cons] at hpre
        exact hde.1 hpre.1.symm
    case _ =>
      subst h
      cases ta <;> simp [tagStr, List.cons_prefix_cons] at hpre
    case _ =>
      subst h
      cases ta <;> simp [tagStr, List.cons_prefix_cons] at hpre
    case _ =>
      subst h
      cases ta with
      | op m =>
        simp [tagStr, List.cons_prefix_cons] at hpre
      | cl m =>
        obtain ⟨hm1, hm6⟩ := hva
        simp only [tagStr, List.cons_append, List.cons_prefix_cons] at hpre
        exact hne (by rw [digChar_inj hm1 hm6 he1 he6 hpre.2.2.2.1])

theorem Wf_cons {s0 : Str} {q : Tag × Str} {l : List (Tag × Str)}
    (h : Wf s0 (q :: l)) : Wf q.2 l :=
  ⟨(h.2 q (List.mem_cons_self q l)).2, fun r hr => h.2 r (List.mem_cons_of_mem q hr)⟩

/-- One textual tag replacement on a rendered body: it rewrites exactly the
matching tags and nothing else. -/
theorem replaceAll_render {ta tb : Tag} (hva : validTag ta) (hvb : validTag tb) :
    ∀ (s0 : Str) (l : List (Tag × Str)), Wf s0 l →
      replaceAll (tagStr ta) (tagStr tb) (render s0 l) =
        render s0 (l.map fun q => (if q.1 = ta then tb else q.1, q.2)) := by
  intro s0 l
  induction l generalizing s0 with
  | nil =>
    intro hwf
    show replaceAll (tagStr ta) (tagStr tb) (render s0 []) = render s0 []
    have h0 : NoMatch (tagStr ta) s0 [] := noMatch_tag_seg hva hwf.1 (Or.inl rfl)
    have := replaceAll_append_left (tagStr tb) h0
    simpa [render, replaceAll_nil] using this
  | cons q l ih =>
    intro hwf
    obtain ⟨t, s⟩ := q
    have hvt : validTag t := (hwf.2 (t, s) (List.mem_cons_self _ l)).1
    show replaceAll (tagStr ta) (tagStr tb) (s0 ++ (tagStr t ++ render s l)) = _
    obtain ⟨z, hz⟩ := tagStr_head t (render s l)
    have hseg : NoMatch (tagStr ta) s0 (tagStr t ++ render s l) :=
      noMatch_tag_seg hva hwf.1 (Or.inr ⟨z, hz⟩)
    rw [replaceAll_append_left (tagStr tb) hseg]
    by_cases heq : t = ta
    · subst heq
      rw [replaceAll_head (tagStr tb) _ (tagStr_ne_nil t)]
      rw [ih s (Wf_cons hwf)]
      simp [render]
    · have htag : NoMatch (tagStr ta) (tagStr t) (render s l) :=
        noMatch_tag_tag hva hvt (fun hcon => heq hcon.symm) (render s l)
      rw [replaceAll_append_left (tagStr tb) htag]
      rw [ih s (Wf_cons hwf)]
      simp [render, heq]

/-- Counting a valid heading tag in a rendered body counts exactly the
matching tag tokens. -/
theorem countOccs_render {ta : Tag} (hva : validTag ta) :
    ∀ (s0 : Str) (l : List (Tag × Str)), Wf s0 l →
      countOccs (tagStr ta) (render s0 l) = l.countP (fun q => q.1 = ta) := by
  intro s0 l
  induction l generalizing s0 with
  | nil =>
    intro hwf
    show countOccs (tagStr ta) (render s0 []) = 0
    exact countOccs_eq_zero (fun t ht htne => by
      have := noMatch_tag_seg hva hwf.1 (Or.inl rfl) t ht htne
      simpa using this)
  | cons q l ih =>
    intro hwf
    obtain ⟨t, s⟩ := q
    have hvt : validTag t := (hwf.2 (t, s) (List.mem_cons_self _ l)).1
    show countOccs (tagStr ta) (s0 ++ (tagStr t ++ render s l)) = _
    obtain ⟨z, hz⟩ := tagStr_head t (render s l)
    have hseg : NoMatch (tagStr ta) s0 (tagStr t ++ render s l) :=
      noMatch_tag_seg hva hwf.1 (Or.inr ⟨z, hz⟩)
    rw [countOccs_append_left hseg]
    by_cases hteq : t = ta
    · subst hteq
      rw [countOccs_head _ (tagStr_ne_nil t), ih s (Wf_cons hwf)]
      simp [List.countP_cons]
      omega
    · have htag : NoMatch (tagStr ta) (tagStr t) (render s l) :=
        noMatch_tag_tag hva hvt (fun hcon => hteq hcon.symm) (render s l)
      rw [countOccs_append_left htag, ih s (Wf_cons hwf)]
      simp [List.countP_cons, hteq]

/-- One iteration of the demotion loop body:
`s.replace(f"<h{i}>", f"<h{i+1}>").replace(f"</h{i}>", f"</h{i+1}>")`. -/
def demoteStep (i : Nat) (s : Str) : Str :=
  replaceAll (tagStr (Tag.cl i)) (tagStr (Tag.cl (i + 1)))
    (replaceAll (tagStr (Tag.op i)) (tagStr (Tag.op (i + 1))) s)

/-- The whole loop `for i in range(5, 0, -1): ...` of `merge_html_file`. -/
def demoteHeadings (s : Str) : Str :=
  [5, 4, 3, 2, 1].foldl (fun acc i => demoteStep i acc) s

/-- Net effect of the loop on a single heading tag: levels 1..5 are demoted
by exactly one, level 6 (the ceiling) is left alone. -/
def demoteTag : Tag → Tag
  | Tag.op n => Tag.op (if n ≤ 5 then n + 1 else n)
  | Tag.cl n => Tag.cl (if n ≤ 5 then n + 1 else n)

def substT (a b t : Tag) : Tag := if t = a then b else t

theorem Wf_map {s0 : Str} {l : List (Tag × Str)} (h : Wf s0 l) (f : Tag → Tag)
    (hf : ∀ t, validTag t → validTag (f t)) :
    Wf s0 (l.map fun q => (f q.1, q.2)) := by
  refine ⟨h.1, ?_⟩
  intro q hq
  simp only [List.mem_map] at hq
  obtain ⟨r, hr, hrq⟩ := hq
  subst hrq
  exact ⟨hf r.1 (h.2 r hr).1, (h.2 r hr).2⟩

theorem valid_substT {a b : Tag} (hb : validTag b) :
    ∀ t, validTag t → validTag (substT a b t) := by
  intro t hv
  unfold substT
  split
  · exact hb
  · exact hv

theorem replaceAll_render' {ta tb : Tag} (hva : validTag ta) (hvb : validTag tb)
    {s0 : Str} {l : List (Tag × Str)} (hwf : Wf s0 l) :
    replaceAll (tagStr ta) (tagStr tb) (render s0 l) =
      render s0 (l.map fun q => (substT ta tb q.1, q.2)) :=
  replaceAll_render hva hvb s0 l hwf

/-- Net effect of one loop iteration on one tag. -/
def demote1 (i : Nat) (t : Tag) : Tag :=
  substT (Tag.cl i) (Tag.cl (i + 1)) (substT (Tag.op i) (Tag.op (i + 1)) t)

theorem demoteStep_render {i : Nat} (h1 : 1 ≤ i) (h5 : i ≤ 5) {s0 : Str}
    {l : List (Tag × Str)} (hwf : Wf s0 l) :
    demoteStep i (render s0 l) =
      render s0 (l.map fun q => (demote1 i q.1, q.2)) := by
  have vop : validTag (Tag.op i) := ⟨h1, by omega⟩
  have vop' : validTag (Tag.op (i + 1)) := ⟨by omega, by omega⟩
  have vcl : validTag (Tag.cl i) := ⟨h1, by omega⟩
  have vcl' : validTag (Tag.cl (i + 1)) := ⟨by omega, by omega⟩
  unfold demoteStep
  rw [replaceAll_render' vop vop' hwf,
    replaceAll_render' vcl vcl' (Wf_map hwf _ (valid_substT vop'))]
  simp only [List.map_map]
  rfl

theorem Wf_map_demote1 {i : Nat} (h1 : 1 ≤ i) (h5 : i ≤ 5) {s0 : Str}
    {l : List (Tag × Str)} (hwf : Wf s0 l) :
    Wf s0 (l.map fun q => (demote1 i q.1, q.2)) := by
  have vop' : validTag (Tag.op (i + 1)) := ⟨by omega, by omega⟩
  have vcl' : validTag (Tag.cl (i + 1)) := ⟨by omega, by omega⟩
  apply Wf_map hwf
  intro t hv
  exact valid_substT vcl' _ (valid_substT vop' _ hv)

theorem demote1_chain {t : Tag} (hv : validTag t) :
    demote1 1 (demote1 2 (demote1 3 (demote1 4 (demote1 5 t)))) = demoteTag t := by
  cases t with
  | op n =>
    obtain ⟨h1, h6⟩ := hv
    interval_cases n <;> decide
  | cl n =>
    obtain ⟨h1, h6⟩ := hv
    interval_cases n <;> decide

/-- The demotion loop of `merge_html_file`, on a well-formed body: every
heading tag of level 1..5 is demoted by exactly one level, level 6 (the
ceiling) is kept, no tag is rewritten twice (the loop substitutes from the
deepest level to the shallowest), and the surrounding text is untouched. -/
theorem demote_render {s0 : Str} {l : List (Tag × Str)} (hwf : Wf s0 l) :
    demoteHeadings (render s0 l) =
      render s0 (l.map fun q => (demoteTag q.1, q.2)) := by
  unfold demoteHeadings
  simp only [List.foldl_cons, List.foldl_nil]
  rw [demoteStep_render (by omega) (by omega) hwf,
    demoteStep_render (by omega) (by omega) (Wf_map_demote1 (by omega) (by omega) hwf),
    demoteStep_render (by omega) (by omega)
      (Wf_map_demote1 (by omega) (by omega) (Wf_map_demote1 (by omega) (by omega) hwf)),
    demoteStep_render (by omega) (by omega)
      (Wf_map_demote1 (by omega) (by omega)
        (Wf_map_demote1 (by omega) (by omega) (Wf_map_demote1 (by omega) (by omega) hwf))),
    demoteStep_render (by omega) (by omega)
      (Wf_map_demote1 (by omega) (by omega)
        (Wf_map_demote1 (by omega) (by omega)
          (Wf_map_demote1 (by omega) (by omega)
            (Wf_map_demote1 (by omega) (by omega) hwf))))]
  simp only [List.map_map]
  apply congrArg (fun ll => render s0 ll)
  apply List.map_congr_left
  intro q hq
  have hv := (hwf.2 q hq).1
  simp only [Function.comp]
  exact congrArg (fun t => (t, q.2)) (demote1_chain hv)

/-- Decidable no-crossing check for a concrete left part `a`: no nonempty
suffix of `a` shorter than `p` is a prefix of `p`. -/
theorem noCross_of_all {p a : Str} (x : Str)
    (h : (a.tails.all fun t =>
      t.isEmpty || !(decide (t.length < p.length)) || !(t.isPrefixOf p)) = true) :
    NoCross p a x := by
  apply noCross_of_short
  intro t ht htne hlt htp _
  have hm := (List.mem_tails t a).mpr ht
  have hb := List.all_eq_true.mp h t hm
  cases t with
  | nil => exact htne rfl
  | cons c ts =>
    rw [decide_eq_true hlt, prefixOf_iff.mpr htp] at hb
    simp at hb

/-- No occurrence of an opening tag pattern crosses out of `a` when the
following text does not begin with one of the pattern's inner characters. -/
theorem noCross_opTag_head {d : Char} {a x : Str} {c0 : Char}
    (hx : x.head? = some c0) (h1 : c0 ≠ 'h') (h2 : c0 ≠ d) (h3 : c0 ≠ '>') :
    NoCross ['<', 'h', d, '>'] a x := by
  apply noCross_of_short
  intro t ht htne hlt htp hdrop
  rcases t with _ | ⟨a1, t1⟩
  · exact htne rfl
  obtain ⟨ha1, htp1⟩ := List.cons_prefix_cons.mp htp
  subst ha1
  rcases t1 with _ | ⟨a2, t2⟩
  · obtain ⟨w, hw⟩ := hdrop
    apply h1
    have : x.head? = some 'h' := by rw [← hw]; rfl
    rw [hx] at this
    exact Option.some_inj.mp this
  obtain ⟨ha2, htp2⟩ := List.cons_prefix_cons.mp htp1
  subst ha2
  rcases t2 with _ | ⟨a3, t3⟩
  · obtain ⟨w, hw⟩ := hdrop
    apply h2
    have : x.head? = some d := by rw [← hw]; rfl
    rw [hx] at this
    exact Option.some_inj.mp this
  obtain ⟨ha3, htp3⟩ := List.cons_prefix_cons.mp htp2
  subst ha3
  rcases t3 with _ | ⟨a4, t4⟩
  · obtain ⟨w, hw⟩ := hdrop
    apply h3
    have : x.head? = some '>' := by rw [← hw]; rfl
    rw [hx] at this
    exact Option.some_inj.mp this
  · obtain ⟨ha4, htp4⟩ := List.cons_prefix_cons.mp htp3
    have h4 : t4 = [] := List.prefix_nil.mp htp4
    subst h4
    subst ha4
    simp at hlt

/-- An opening tag pattern never occurs inside a heading-free string. -/
theorem countOccs_opTag_seg {d : Char} {a : Str} (ha : hFree a) :
    countOccs ['<', 'h', d, '>'] a = 0 := by
  apply countOccs_eq_zero
  intro t ht htne hpre
  have h2 : ['<', 'h'] <+: t :=
    List.IsPrefix.trans ⟨[d, '>'], rfl⟩ hpre
  exact ha.1 (List.IsInfix.trans (List.IsPrefix.isInfix h2) (List.IsSuffix.isInfix ht))

/-! ### The merged artifact produced by `merge_html_file`

    final_html = f"""
    <article>
    <h1>{title_content}</h1>
    {merged_html_content}
    </article>
    """
-/

def mergePre : Str := ("\n    <article>\n    <h1>").data

def mergeMid : Str := ("</h1>\n    ").data

def mergePost : Str := ("\n    </article>\n    ").data

/-- The full text written by `merge_html_file`: the concatenated member
bodies, headings demoted, wrapped in `<article>` with an `<h1>` title. -/
def mergeFinalHtml (contents : List Str) (title : Str) : Str :=
  mergePre ++ (title ++ (mergeMid ++ (demoteHeadings contents.flatten ++ mergePost)))

/-- C1: For every multi-member group merged by `merge_html_file`, the output
is one `<article>` whose first child is a single `<h1>` holding the group
title; every heading tag of level 1..5 in the concatenated member bodies is
demoted by exactly one level (`h5 → h6` is the ceiling), substituting from
the deepest level to the shallowest so no heading is demoted twice; and for
a group of three fragments each containing one `<h2>` element and no other
heading markup, the merged artifact contains exactly three `<h3>` tags and
zero `<h2>` tags. -/
theorem c1_merge_demotes_headings :
    (∀ (s0 : Str) (l : List (Tag × Str)), Wf s0 l →
        demoteHeadings (render s0 l) =
          render s0 (l.map fun q => (demoteTag q.1, q.2))) ∧
    (∀ (a1 b1 c1 a2 b2 c2 a3 b3 c3 title : Str),
      hFree a1 → hFree b1 → hFree (c1 ++ a2) → hFree b2 → hFree (c2 ++ a3) →
      hFree b3 → hFree c3 → hFree title →
      mergeFinalHtml
          [render a1 [(Tag.op 2, b1), (Tag.cl 2, c1)],
            render a2 [(Tag.op 2, b2), (Tag.cl 2, c2)],
            render a3 [(Tag.op 2, b3), (Tag.cl 2, c3)]] title =
        mergePre ++ (title ++ (mergeMid ++
          (render a1 [(Tag.op 3, b1), (Tag.cl 3, c1 ++ a2), (Tag.op 3, b2),
            (Tag.cl 3, c2 ++ a3), (Tag.op 3, b3), (Tag.cl 3, c3)] ++ mergePost))) ∧
      countOccs (tagStr (Tag.op 3))
        (mergeFinalHtml
          [render a1 [(Tag.op 2, b1), (Tag.cl 2, c1)],
            render a2 [(Tag.op 2, b2), (Tag.cl 2, c2)],
            render a3 [(Tag.op 2, b3), (Tag.cl 2, c3)]] title) = 3 ∧
      countOccs (tagStr (Tag.op 2))
        (mergeFinalHtml
          [render a1 [(Tag.op 2, b1), (Tag.cl 2, c1)],
            render a2 [(Tag.op 2, b2), (Tag.cl 2, c2)],
            render a3 [(Tag.op 2, b3), (Tag.cl 2, c3)]] title) = 0) := by
  constructor
  · intro s0 l hwf
    exact demote_render hwf
  intro a1 b1 c1 a2 b2 c2 a3 b3 c3 title ha1 hb1 hc1 hb2 hc2 hb3 hc3 htitle
  have hv2 : validTag (Tag.op 2) := ⟨by omega, by omega⟩
  have hv3 : validTag (Tag.op 3) := ⟨by omega, by omega⟩
  have hwfL : Wf a1 [(Tag.op 2, b1), (Tag.cl 2, c1 ++ a2), (Tag.op 2, b2),
      (Tag.cl 2, c2 ++ a3), (Tag.op 2, b3), (Tag.cl 2, c3)] := by
    refine ⟨ha1, ?_⟩
    intro q hq
    simp only [List.mem_cons, List.not_mem_nil, or_false] at hq
    rcases hq with h | h | h | h | h | h <;> subst h <;>
      exact ⟨⟨by omega, by omega⟩, by assumption⟩
  have hwfL' : Wf a1 [(Tag.op 3, b1), (Tag.cl 3, c1 ++ a2), (Tag.op 3, b2),
      (Tag.cl 3, c2 ++ a3), (Tag.op 3, b3), (Tag.cl 3, c3)] := by
    refine ⟨ha1, ?_⟩
    intro q hq
    simp only [List.mem_cons, List.not_mem_nil, or_false] at hq
    rcases hq with h | h | h | h | h | h <;> subst h <;>
      exact ⟨⟨by omega, by omega⟩, by assumption⟩
  have hjoin : [render a1 [(Tag.op 2, b1), (Tag.cl 2, c1)],
      render a2 [(Tag.op 2, b2), (Tag.cl 2, c2)],
      render a3 [(Tag.op 2, b3), (Tag.cl 2, c3)]].flatten =
      render a1 [(Tag.op 2, b1), (Tag.cl 2, c1 ++ a2), (Tag.op 2, b2),
        (Tag.cl 2, c2 ++ a3), (Tag.op 2, b3), (Tag.cl 2, c3)] := by
    simp [render, List.append_assoc]
  have hdem : demoteHeadings (render a1 [(Tag.op 2, b1), (Tag.cl 2, c1 ++ a2),
      (Tag.op 2, b2), (Tag.cl 2, c2 ++ a3), (Tag.op 2, b3), (Tag.cl 2, c3)]) =
      render a1 [(Tag.op 3, b1), (Tag.cl 3, c1 ++ a2), (Tag.op 3, b2),
        (Tag.cl 3, c2 ++ a3), (Tag.op 3, b3), (Tag.cl 3, c3)] := by
    rw [demote_render hwfL]
    rfl
  have hstruct : mergeFinalHtml
      [render a1 [(Tag.op 2, b1), (Tag.cl 2, c1)],
        render a2 [(Tag.op 2, b2), (Tag.cl 2, c2)],
        render a3 [(Tag.op 2, b3), (Tag.cl 2, c3)]] title =
      mergePre ++ (title ++ (mergeMid ++
        (render a1 [(Tag.op 3, b1), (Tag.cl 3, c1 ++ a2), (Tag.op 3, b2),
          (Tag.cl 3, c2 ++ a3), (Tag.op 3, b3), (Tag.cl 3, c3)] ++ mergePost))) := by
    unfold mergeFinalHtml
    rw [hjoin, hdem]
  have hcount : ∀ (d : Tag), validTag d → (d = Tag.op 3 ∨ d = Tag.op 2) →
      countOccs (tagStr d)
        (mergePre ++ (title ++ (mergeMid ++
          (render a1 [(Tag.op 3, b1), (Tag.cl 3, c1 ++ a2), (Tag.op 3, b2),
            (Tag.cl 3, c2 ++ a3), (Tag.op 3, b3), (Tag.cl 3, c3)] ++ mergePost)))) =
      [(Tag.op 3, b1), (Tag.cl 3, c1 ++ a2), (Tag.op 3, b2),
        (Tag.cl 3, c2 ++ a3), (Tag.op 3, b3), (Tag.cl 3, c3)].countP
          (fun q => q.1 = d) := by
    intro d hvd hd
    have hpne : tagStr d ≠ [] := tagStr_ne_nil d
    have hnc1 : NoCross (tagStr d) mergePre
        (title ++ (mergeMid ++
          (render a1 [(Tag.op 3, b1), (Tag.cl 3, c1 ++ a2), (Tag.op 3, b2),
            (Tag.cl 3, c2 ++ a3), (Tag.op 3, b3), (Tag.cl 3, c3)] ++ mergePost))) := by
      rcases hd with h | h <;> subst h <;> exact noCross_of_all _ (by decide)
    have hnc2 : NoCross (tagStr d) title
        (mergeMid ++
          (render a1 [(Tag.op 3, b1), (Tag.cl 3, c1 ++ a2), (Tag.op 3, b2),
            (Tag.cl 3, c2 ++ a3), (Tag.op 3, b3), (Tag.cl 3, c3)] ++ mergePost)) := by
      rcases hd with h | h <;> subst h <;>
        exact noCross_opTag_head (show (mergeMid ++ _).head? = some '<' from rfl)
          (by decide) (by decide) (by decide)
    have hnc3 : NoCross (tagStr d) mergeMid
        (render a1 [(Tag.op 3, b1), (Tag.cl 3, c1 ++ a2), (Tag.op 3, b2),
          (Tag.cl 3, c2 ++ a3), (Tag.op 3, b3), (Tag.cl 3, c3)] ++ mergePost) := by
      rcases hd with h | h <;> subst h <;> exact noCross_of_all _ (by decide)
    have hnc4 : NoCross (tagStr d)
        (render a1 [(Tag.op 3, b1), (Tag.cl 3, c1 ++ a2), (Tag.op 3, b2),
          (Tag.cl 3, c2 ++ a3), (Tag.op 3, b3), (Tag.cl 3, c3)]) mergePost := by
      rcases hd with h | h <;> subst h <;>
        exact noCross_opTag_head (show mergePost.head? = some '\n' from rfl)
          (by decide) (by decide) (by decide)
    rw [countOccs_append hpne hnc1, countOccs_append hpne hnc2,
      countOccs_append hpne hnc3, countOccs_append hpne hnc4]
    have h1 : countOccs (tagStr d) mergePre = 0 := by
      rcases hd with h | h <;> subst h <;> decide
    have h2 : countOccs (tagStr d) title = 0 := by
      rcases hd with h | h <;> subst h <;> exact countOccs_opTag_seg htitle
    have h3 : countOccs (tagStr d) mergeMid = 0 := by
      rcases hd with h | h <;> subst h <;> decide
    have h5 : countOccs (tagStr d) mergePost = 0 := by
      rcases hd with h | h <;> subst h <;> decide
    have h4 := countOccs_render hvd a1 _ hwfL'
    rw [h1, h2, h3, h4, h5]
    omega
  refine ⟨hstruct, ?_, ?_⟩
  · rw [hstruct, hcount (Tag.op 3) hv3 (Or.inl rfl)]
    simp [List.countP_cons]
  · rw [hstruct, hcount (Tag.op 2) hv2 (Or.inr rfl)]
    simp [List.countP_cons]

/-- Witness for C1 at concrete member fragments and title. -/
theorem c1_merge_demotes_headings_witness :
    (hFree ("<p>a</p>").data ∧ hFree ("Body one").data ∧
      hFree (("tail one").data ++ ("<p>b</p>").data) ∧ hFree ("Body two").data ∧
      hFree (("tail two").data ++ ("<p>c</p>").data) ∧ hFree ("Body three").data ∧
      hFree ("tail three").data ∧ hFree ("Group Title").data) ∧
    (countOccs (tagStr (Tag.op 3))
        (mergeFinalHtml
          [render ("<p>a</p>").data [(Tag.op 2, ("Body one").data), (Tag.cl 2, ("tail one").data)],
            render ("<p>b</p>").data [(Tag.op 2, ("Body two").data), (Tag.cl 2, ("tail two").data)],
            render ("<p>c</p>").data [(Tag.op 2, ("Body three").data), (Tag.cl 2, ("tail three").data)]]
          ("Group Title").data) = 3 ∧
      countOccs (tagStr (Tag.op 2))
        (mergeFinalHtml
          [render ("<p>a</p>").data [(Tag.op 2, ("Body one").data), (Tag.cl 2, ("tail one").data)],
            render ("<p>b</p>").data [(Tag.op 2, ("Body two").data), (Tag.cl 2, ("tail two").data)],
            render ("<p>c</p>").data [(Tag.op 2, ("Body three").data), (Tag.cl 2, ("tail three").data)]]
          ("Group Title").data) = 0) :=
  ⟨⟨by decide, by decide, by decide, by decide, by decide, by decide, by decide, by decide⟩,
    (c1_merge_demotes_headings.2 ("<p>a</p>").data ("Body one").data ("tail one").data
      ("<p>b</p>").data ("Body two").data ("tail two").data ("<p>c</p>").data
      ("Body three").data ("tail three").data ("Group Title").data
      (by decide) (by decide) (by decide) (by decide) (by decide) (by decide)
      (by decide) (by decide)).2⟩

/-! ### File-system model

Paths map to contents; `os.path.exists` is `fsHas`, `os.remove` is
`fsRemove`, writing a file is `fsWrite`. -/

abbrev FS := List (String × Str)

def fsHas : FS → String → Bool
  | [], _ => false
  | e :: fs, p => e.1 = p || fsHas fs p

def fsGet : FS → String → Option Str
  | [], _ => none
  | e :: fs, p => if e.1 = p then some e.2 else fsGet fs p

def fsRemove : FS → String → FS
  | [], _ => []
  | e :: fs, p => if e.1 = p then fsRemove fs p else e :: fsRemove fs p

def fsWrite (fs : FS) (p : String) (c : Str) : FS := fsRemove fs p ++ [(p, c)]

theorem fsHas_iff_fsGet {fs : FS} {p : String} :
    fsHas fs p = true ↔ ∃ c, fsGet fs p = some c := by
  induction fs with
  | nil => simp [fsHas, fsGet]
  | cons e fs ih =>
    by_cases h : e.1 = p
    · simp [fsHas, fsGet, h]
    · simp [fsHas, fsGet, h, ih]

theorem fsGet_remove_ne {fs : FS} {p q : String} (h : q ≠ p) :
    fsGet (fsRemove fs p) q = fsGet fs q := by
  induction fs with
  | nil => rfl
  | cons e fs ih =>
    by_cases he : e.1 = p
    · have hpq : ¬ (p = q) := fun hc => h hc.symm
      simp [fsRemove, fsGet, he, hpq, ih]
    · simp only [fsRemove, fsGet, if_neg he]
      by_cases hq : e.1 = q
      · simp [fsGet, hq]
      · simp [fsGet, hq, ih]

theorem fsGet_remove_self (fs : FS) (p : String) :
    fsGet (fsRemove fs p) p = none := by
  induction fs with
  | nil => rfl
  | cons e fs ih =>
    by_cases he : e.1 = p
    · simp [fsRemove, he, ih]
    · simp [fsRemove, fsGet, he, ih]

theorem fsHas_remove_ne {fs : FS} {p q : String} (h : q ≠ p) :
    fsHas (fsRemove fs p) q = fsHas fs q := by
  induction fs with
  | nil => rfl
  | cons e fs ih =>
    by_cases he : e.1 = p
    · have hpq : ¬ (p = q) := fun hc => h hc.symm
      simp [fsRemove, fsHas, he, hpq, ih]
    · simp only [fsRemove, fsHas, if_neg he]
      by_cases hq : e.1 = q
      · simp [fsHas, hq]
      · simp [fsHas, hq, ih]

theorem fsHas_remove_self (fs : FS) (p : String) :
    fsHas (fsRemove fs p) p = false := by
  rw [Bool.eq_false_iff]
  intro hc
  obtain ⟨c, hc2⟩ := fsHas_iff_fsGet.mp hc
  rw [fsGet_remove_self] at hc2
  cases hc2

theorem fsGet_append_ne {l : FS} {p q : String} (c : Str) (h : q ≠ p) :
    fsGet (l ++ [(p, c)]) q = fsGet l q := by
  induction l with
  | nil => simp [fsGet, (show ¬ (p = q) from fun hc => h hc.symm)]
  | cons e l ih =>
    by_cases hq : e.1 = q
    · simp [fsGet, hq]
    · simp [fsGet, hq, ih]

theorem fsGet_write_self (fs : FS) (p : String) (c : Str) :
    fsGet (fsWrite fs p c) p = some c := by
  unfold fsWrite
  induction fs with
  | nil => simp [fsGet]
  | cons e fs ih =>
    by_cases he : e.1 = p
    · simp [fsRemove, he, ih]
    · simp [fsRemove, fsGet, he, ih]

theorem fsGet_write_ne {fs : FS} {p q : String} (c : Str) (h : q ≠ p) :
    fsGet (fsWrite fs p c) q = fsGet fs q := by
  unfold fsWrite
  rw [fsGet_append_ne c h, fsGet_remove_ne h]

theorem fsHas_write_self (fs : FS) (p : String) (c : Str) :
    fsHas (fsWrite fs p c) p = true :=
  fsHas_iff_fsGet.mpr ⟨c, fsGet_write_self fs p c⟩

theorem fsHas_write_ne {fs : FS} {p q : String} (c : Str) (h : q ≠ p) :
    fsHas (fsWrite fs p c) q = fsHas fs q := by
  by_cases hq : fsHas fs q = true
  · obtain ⟨d, hd⟩ := fsHas_iff_fsGet.mp hq
    rw [hq]
    exact fsHas_iff_fsGet.mpr ⟨d, by rw [fsGet_write_ne c h]; exact hd⟩
  · rw [Bool.not_eq_true] at hq
    rw [hq, Bool.eq_false_iff]
    intro hc
    obtain ⟨d, hd⟩ := fsHas_iff_fsGet.mp hc
    rw [fsGet_write_ne c h] at hd
    have := fsHas_iff_fsGet.mpr ⟨d, hd⟩
    rw [hq] at this
    cases this

/-! ### `merge_html_file` and step 3 of the pipeline

`merge_html_file(html_files, output_folder, title_content)` reads each
member file that exists (missing ones are logged and skipped), demotes the
headings of the concatenation, wraps it in the `<article>` scaffold and
writes it to a fresh randomly-named file, returning that path.  The random
name is modelled by the explicit `outputFile` parameter, and the success of
the final write by `writeOk` (on failure the exception propagates with the
file system unchanged, since nothing was written before). -/

def mergeHtmlFile (fs : FS) (htmlFiles : List String) (outputFile : String)
    (title : Str) (writeOk : Bool) : FS × Option String :=
  let contents := htmlFiles.filterMap (fun f => fsGet fs f)
  if writeOk then
    (fsWrite fs outputFile (mergeFinalHtml contents title), some outputFile)
  else
    (fs, none)

/-- The multi-member branch of `step_3_merge_articles`: merge, then delete
each original member file that exists.  A failure inside `merge_html_file`
propagates before the deletion loop runs. -/
def step3MergeGroup (fs : FS) (memberFiles : List String) (outputFile : String)
    (title : Str) (writeOk : Bool) : FS × Option String :=
  match mergeHtmlFile fs memberFiles outputFile title writeOk with
  | (fs1, none) => (fs1, none)
  | (fs1, some out) =>
    (memberFiles.foldl (fun acc f => if fsHas acc f then fsRemove acc f else acc) fs1,
      some out)

theorem fsHas_step_mono {acc : FS} {g f : String}
    (h : fsHas (if fsHas acc g then fsRemove acc g else acc) f = true) :
    fsHas acc f = true := by
  by_cases hg : fsHas acc g = true
  · rw [if_pos hg] at h
    by_cases hfg : f = g
    · subst hfg
      rw [fsHas_remove_self] at h
      cases h
    · rwa [fsHas_remove_ne hfg] at h
  · rw [if_neg hg] at h
    exact h

theorem foldl_remove_mono :
    ∀ (files : List String) (acc : FS) (f : String),
      fsHas (files.foldl (fun acc f => if fsHas acc f then fsRemove acc f else acc) acc) f
          = true →
      fsHas acc f = true := by
  intro files
  induction files with
  | nil =>
    intro acc f h
    exact h
  | cons g files ih =>
    intro acc f h
    rw [List.foldl_cons] at h
    exact fsHas_step_mono (ih _ f h)

theorem foldl_remove_all :
    ∀ (files : List String) (acc : FS) (f : String), f ∈ files →
      fsHas (files.foldl (fun acc f => if fsHas acc f then fsRemove acc f else acc) acc) f
        = false := by
  intro files
  induction files with
  | nil =>
    intro acc f hf
    cases hf
  | cons g files ih =>
    intro acc f hf
    rw [List.foldl_cons]
    rcases List.mem_cons.mp hf with h | h
    · subst h
      have h1 : fsHas (if fsHas acc f then fsRemove acc f else acc) f = false := by
        by_cases hg : fsHas acc f = true
        · rw [if_pos hg]
          exact fsHas_remove_self acc f
        · rw [if_neg hg]
          rw [Bool.not_eq_true] at hg
          exact hg
      rw [Bool.eq_false_iff]
      intro hc
      rw [foldl_remove_mono files _ f hc] at h1
      cases h1
    · exact ih _ f h

theorem foldl_remove_get_other :
    ∀ (files : List String) (acc : FS) (q : String), q ∉ files →
      fsGet (files.foldl (fun acc f => if fsHas acc f then fsRemove acc f else acc) acc) q
        = fsGet acc q := by
  intro files
  induction files with
  | nil =>
    intro acc q _
    rfl
  | cons g files ih =>
    intro acc q hq
    rw [List.foldl_cons, ih _ q (fun hc => hq (List.mem_cons_of_mem g hc))]
    by_cases hg : fsHas acc g = true
    · rw [if_pos hg]
      exact fsGet_remove_ne (fun hc => hq (hc ▸ List.mem_cons_self g files))
    · rw [if_neg hg]

/-- C3: in the multi-member merge step, the original member files are
deleted only after the merged output was successfully written; any failure
before the write leaves the file system — all originals included — intact. -/
theorem c3_originals_deleted_only_after_write
    (fs : FS) (memberFiles : List String) (outputFile : String) (title : Str)
    (hout : outputFile ∉ memberFiles) :
    step3MergeGroup fs memberFiles outputFile title false = (fs, none) ∧
    ((step3MergeGroup fs memberFiles outputFile title true).2 = some outputFile ∧
      fsGet (step3MergeGroup fs memberFiles outputFile title true).1 outputFile =
        some (mergeFinalHtml (memberFiles.filterMap (fun f => fsGet fs f)) title) ∧
      ∀ f ∈ memberFiles,
        fsHas (step3MergeGroup fs memberFiles outputFile title true).1 f = false) := by
  constructor
  · rfl
  refine ⟨rfl, ?_, ?_⟩
  · show fsGet (memberFiles.foldl _ (fsWrite fs outputFile _)) outputFile = _
    rw [foldl_remove_get_other memberFiles _ outputFile hout, fsGet_write_self]
  · intro f hf
    exact foldl_remove_all memberFiles _ f hf

/-- Witness for C3 at a concrete file system and group. -/
theorem c3_originals_deleted_only_after_write_witness :
    ("m.html" ∉ ["a.html", "b.html"]) ∧
    (step3MergeGroup [("a.html", ('x' :: [])), ("b.html", ('y' :: []))]
        ["a.html", "b.html"] "m.html" [] false =
      ([("a.html", ('x' :: [])), ("b.html", ('y' :: []))], none)) ∧
    fsHas (step3MergeGroup [("a.html", ('x' :: [])), ("b.html", ('y' :: []))]
        ["a.html", "b.html"] "m.html" [] true).1 "a.html" = false :=
  ⟨by decide, (c3_originals_deleted_only_after_write
      [("a.html", ('x' :: [])), ("b.html", ('y' :: []))]
      ["a.html", "b.html"] "m.html" [] (by decide)).1,
    (c3_originals_deleted_only_after_write
      [("a.html", ('x' :: [])), ("b.html", ('y' :: []))]
      ["a.html", "b.html"] "m.html" [] (by decide)).2.2.2 "a.html" (by decide)⟩

/-- C4 counterexample: a group both of whose member files are missing still
produces a merged output file — `merge_html_file` writes the `<article>`
scaffold unconditionally, so "a group that loses all members produces no
output" is false on the code. -/
theorem c4_all_members_missing_still_writes_output :
    (∀ f ∈ ["a.html", "b.html"], fsGet ([] : FS) f = none) ∧
    (mergeHtmlFile [] ["a.html", "b.html"] "merged.html" [] true).2 = some "merged.html" ∧
    fsHas (mergeHtmlFile [] ["a.html", "b.html"] "merged.html" [] true).1 "merged.html"
      = true := by
  refine ⟨?_, rfl, ?_⟩
  · intro f _
    rfl
  · decide

/-- C4 amended: a missing member file is skipped without aborting the merge
of the rest of the group (the merged content is the concatenation of the
members that do exist, in order), but a group all of whose members are
missing still produces an output file, holding only the empty scaffold. -/
theorem c4_missing_members_skipped
    (fs : FS) (memberFiles : List String) (outputFile : String) (title : Str) :
    (mergeHtmlFile fs memberFiles outputFile title true).2 = some outputFile ∧
    fsGet (mergeHtmlFile fs memberFiles outputFile title true).1 outputFile =
      some (mergeFinalHtml (memberFiles.filterMap (fun f => fsGet fs f)) title) ∧
    ((∀ f ∈ memberFiles, fsGet fs f = none) →
      fsGet (mergeHtmlFile fs memberFiles outputFile title true).1 outputFile =
        some (mergeFinalHtml [] title)) := by
  refine ⟨rfl, ?_, ?_⟩
  · show fsGet (fsWrite fs outputFile _) outputFile = _
    rw [fsGet_write_self]
  · intro hall
    show fsGet (fsWrite fs outputFile _) outputFile = _
    rw [fsGet_write_self, List.filterMap_eq_nil_iff.mpr hall]

/-- Witness for the amended C4 at a concrete group with one present and one
missing member. -/
theorem c4_missing_members_skipped_witness :
    fsGet (mergeHtmlFile [("a.html", ('x' :: []))] ["a.html", "missing.html"]
        "merged.html" [] true).1 "merged.html" =
      some (mergeFinalHtml [('x' :: [])] []) ∧
    (∀ f ∈ ["missing.html"], fsGet ([("a.html", ('x' :: []))] : FS) f = none) :=
  ⟨by
    have h := (c4_missing_members_skipped [("a.html", ('x' :: []))]
      ["a.html", "missing.html"] "merged.html" []).2.1
    rw [h]
    rfl,
   by decide⟩

/-! ### `delete_nextjs_markdown_file`

The function removes, in order: the thumbnail (a missing thumbnail is only
logged as a warning), every inline image referenced by the Markdown body
(a missing one raises `FileNotFoundError`, caught by the outer `except`,
which returns `False` — so nothing after it is deleted), and finally the
Markdown file itself, returning `True`.  The image list stands for
`extract_image_urls` applied to the document (which deduplicates), and the
two paths for the ones the source computes from the filename. -/

def deleteImagesLoop : FS → List String → FS × Bool
  | fs, [] => (fs, true)
  | fs, img :: rest =>
    if fsHas fs img then deleteImagesLoop (fsRemove fs img) rest else (fs, false)

def deleteNextjsMarkdownFile (fs : FS) (markdownPath thumbnailPath : String)
    (images : List String) : FS × Bool :=
  match deleteImagesLoop
      (if fsHas fs thumbnailPath then fsRemove fs thumbnailPath else fs) images with
  | (fs2, false) => (fs2, false)
  | (fs2, true) => (fsRemove fs2 markdownPath, true)

theorem deleteImagesLoop_cons (fs : FS) (i : String) (rest : List String) :
    deleteImagesLoop fs (i :: rest) =
      if fsHas fs i then deleteImagesLoop (fsRemove fs i) rest else (fs, false) := rfl

theorem deleteImagesLoop_all_present :
    ∀ (images : List String) (fs : FS), images.Nodup →
      (∀ img ∈ images, fsHas fs img = true) →
      (deleteImagesLoop fs images).2 = true ∧
      (∀ img ∈ images, fsHas (deleteImagesLoop fs images).1 img = false) ∧
      (∀ q, q ∉ images → fsGet (deleteImagesLoop fs images).1 q = fsGet fs q) := by
  intro images
  induction images with
  | nil =>
    intro fs _ _
    exact ⟨rfl, fun img h => absurd h (List.not_mem_nil img), fun q _ => rfl⟩
  | cons img rest ih =>
    intro fs hnd hall
    have himg : fsHas fs img = true := hall img (List.mem_cons_self img rest)
    have hnd' : rest.Nodup := (List.nodup_cons.mp hnd).2
    have hnotmem : img ∉ rest := (List.nodup_cons.mp hnd).1
    have hall' : ∀ i ∈ rest, fsHas (fsRemove fs img) i = true := by
      intro i hi
      have hne : i ≠ img := fun hc => hnotmem (hc ▸ hi)
      rw [fsHas_remove_ne hne]
      exact hall i (List.mem_cons_of_mem img hi)
    have hstep : deleteImagesLoop fs (img :: rest) =
        deleteImagesLoop (fsRemove fs img) rest := by
      rw [deleteImagesLoop_cons, if_pos himg]
    obtain ⟨h1, h2, h3⟩ := ih (fsRemove fs img) hnd' hall'
    refine ⟨by rw [hstep]; exact h1, ?_, ?_⟩
    · intro i hi
      rw [hstep]
      rcases List.mem_cons.mp hi with h | h
      · subst h
        rw [Bool.eq_false_iff]
        intro hc
        obtain ⟨c, hc2⟩ := fsHas_iff_fsGet.mp hc
        rw [h3 i hnotmem, fsGet_remove_self] at hc2
        cases hc2
      · exact h2 i h
    · intro q hq
      rw [hstep, h3 q (fun hc => hq (List.mem_cons_of_mem img hc)),
        fsGet_remove_ne (fun hc => hq (by rw [hc]; exact List.mem_cons_self img rest))]

theorem deleteImagesLoop_missing :
    ∀ (images : List String) (fs : FS),
      (∃ img ∈ images, fsHas fs img = false) →
      (deleteImagesLoop fs images).2 = false := by
  intro images
  induction images with
  | nil =>
    intro fs h
    obtain ⟨img, hm, _⟩ := h
    cases hm
  | cons i rest ih =>
    intro fs h
    obtain ⟨img, hm, hmiss⟩ := h
    by_cases hi : fsHas fs i = true
    · rw [deleteImagesLoop_cons, if_pos hi]
      apply ih
      rcases List.mem_cons.mp hm with h | h
      · subst h
        rw [hi] at hmiss
        cases hmiss
      · refine ⟨img, h, ?_⟩
        by_cases hne : img = i
        · subst hne
          exact fsHas_remove_self fs img
        · rw [fsHas_remove_ne hne]
          exact hmiss
    · rw [deleteImagesLoop_cons, if_neg hi]

theorem deleteImagesLoop_get_outside :
    ∀ (images : List String) (fs : FS) (q : String), q ∉ images →
      fsGet (deleteImagesLoop fs images).1 q = fsGet fs q := by
  intro images
  induction images with
  | nil =>
    intro fs q _
    rfl
  | cons i rest ih =>
    intro fs q hq
    by_cases hi : fsHas fs i = true
    · rw [deleteImagesLoop_cons, if_pos hi,
        ih _ q (fun hc => hq (List.mem_cons_of_mem i hc)),
        fsGet_remove_ne (fun hc => hq (by rw [hc]; exact List.mem_cons_self i rest))]
    · rw [deleteImagesLoop_cons, if_neg hi]

/-- C2: in the per-file deletion of the retention cleaner, a missing
thumbnail only produces a warning and deletion continues to completion,
whereas a missing referenced inline image fails the whole deletion; the
order is thumbnail, then inline images, then the Markdown file, so whenever
an inline-image deletion fails the Markdown file survives on disk (while the
thumbnail, handled first, is already gone). -/
theorem c2_delete_markdown_failure_policy
    (fs : FS) (markdownPath thumbnailPath : String) (images : List String)
    (hmd_img : markdownPath ∉ images) (hmd_th : markdownPath ≠ thumbnailPath)
    (hth_img : thumbnailPath ∉ images) (hnd : images.Nodup) :
    (fsHas fs thumbnailPath = false → (∀ i ∈ images, fsHas fs i = true) →
      (deleteNextjsMarkdownFile fs markdownPath thumbnailPath images).2 = true ∧
      fsHas (deleteNextjsMarkdownFile fs markdownPath thumbnailPath images).1
        markdownPath = false) ∧
    ((∃ i ∈ images, fsHas fs i = false) →
      (deleteNextjsMarkdownFile fs markdownPath thumbnailPath images).2 = false ∧
      fsGet (deleteNextjsMarkdownFile fs markdownPath thumbnailPath images).1
          markdownPath = fsGet fs markdownPath) ∧
    ((∃ i ∈ images, fsHas fs i = false) → fsHas fs thumbnailPath = true →
      fsHas (deleteNextjsMarkdownFile fs markdownPath thumbnailPath images).1
        thumbnailPath = false) := by
  refine ⟨?_, ?_, ?_⟩
  · intro hth hall
    obtain ⟨h1, _, _⟩ := deleteImagesLoop_all_present images fs hnd hall
    have hite : (if fsHas fs thumbnailPath then fsRemove fs thumbnailPath else fs) = fs :=
      if_neg (by rw [hth]; exact Bool.false_ne_true)
    unfold deleteNextjsMarkdownFile
    rw [hite]
    rcases hloop : deleteImagesLoop fs images with ⟨fs2, b⟩
    rw [hloop] at h1
    simp only at h1
    subst h1
    exact ⟨rfl, fsHas_remove_self fs2 markdownPath⟩
  · intro hmiss
    by_cases hth : fsHas fs thumbnailPath = true
    · have hite : (if fsHas fs thumbnailPath then fsRemove fs thumbnailPath else fs) =
          fsRemove fs thumbnailPath := if_pos hth
      have hmiss1 : ∃ i ∈ images, fsHas (fsRemove fs thumbnailPath) i = false := by
        obtain ⟨i, hi, hf⟩ := hmiss
        refine ⟨i, hi, ?_⟩
        rw [fsHas_remove_ne (fun hc => hth_img (by rw [← hc]; exact hi))]
        exact hf
      have h1 := deleteImagesLoop_missing images (fsRemove fs thumbnailPath) hmiss1
      unfold deleteNextjsMarkdownFile
      rw [hite]
      rcases hloop : deleteImagesLoop (fsRemove fs thumbnailPath) images with ⟨fs2, b⟩
      rw [hloop] at h1
      simp only at h1
      subst h1
      refine ⟨rfl, ?_⟩
      have := deleteImagesLoop_get_outside images (fsRemove fs thumbnailPath)
        markdownPath hmd_img
      rw [hloop] at this
      simp only at this
      rw [this, fsGet_remove_ne hmd_th]
    · have hite : (if fsHas fs thumbnailPath then fsRemove fs thumbnailPath else fs) = fs :=
        if_neg hth
      have h1 := deleteImagesLoop_missing images fs hmiss
      unfold deleteNextjsMarkdownFile
      rw [hite]
      rcases hloop : deleteImagesLoop fs images with ⟨fs2, b⟩
      rw [hloop] at h1
      simp only at h1
      subst h1
      refine ⟨rfl, ?_⟩
      have := deleteImagesLoop_get_outside images fs markdownPath hmd_img
      rw [hloop] at this
      simp only at this
      exact this
  · intro hmiss hth
    have hite : (if fsHas fs thumbnailPath then fsRemove fs thumbnailPath else fs) =
        fsRemove fs thumbnailPath := if_pos hth
    have hmiss1 : ∃ i ∈ images, fsHas (fsRemove fs thumbnailPath) i = false := by
      obtain ⟨i, hi, hf⟩ := hmiss
      refine ⟨i, hi, ?_⟩
      rw [fsHas_remove_ne (fun hc => hth_img (by rw [← hc]; exact hi))]
      exact hf
    have h1 := deleteImagesLoop_missing images (fsRemove fs thumbnailPath) hmiss1
    unfold deleteNextjsMarkdownFile
    rw [hite]
    rcases hloop : deleteImagesLoop (fsRemove fs thumbnailPath) images with ⟨fs2, b⟩
    rw [hloop] at h1
    simp only at h1
    subst h1
    have hget := deleteImagesLoop_get_outside images (fsRemove fs thumbnailPath)
      thumbnailPath hth_img
    rw [hloop] at hget
    simp only at hget
    rw [Bool.eq_false_iff]
    intro hc
    obtain ⟨c, hc2⟩ := fsHas_iff_fsGet.mp hc
    rw [hget, fsGet_remove_self] at hc2
    cases hc2

/-- Witness for C2 at a concrete file system: one missing image aborts the
deletion with the Markdown file kept, while a missing thumbnail alone lets
the deletion complete. -/
theorem c2_delete_markdown_failure_policy_witness :
    ((deleteNextjsMarkdownFile
        [("content/x.md", ('m' :: [])), ("public/a.webp", ('a' :: []))]
        "content/x.md" "public/images/thubnails/x.webp"
        ["public/a.webp", "public/b.webp"]).2 = false ∧
      fsGet (deleteNextjsMarkdownFile
        [("content/x.md", ('m' :: [])), ("public/a.webp", ('a' :: []))]
        "content/x.md" "public/images/thubnails/x.webp"
        ["public/a.webp", "public/b.webp"]).1 "content/x.md" =
          fsGet [("content/x.md", ('m' :: [])), ("public/a.webp", ('a' :: []))]
            "content/x.md") ∧
    ((deleteNextjsMarkdownFile
        [("content/x.md", ('m' :: [])), ("public/a.webp", ('a' :: []))]
        "content/x.md" "public/images/thubnails/x.webp" ["public/a.webp"]).2 = true) :=
  ⟨(c2_delete_markdown_failure_policy
      [("content/x.md", ('m' :: [])), ("public/a.webp", ('a' :: []))]
      "content/x.md" "public/images/thubnails/x.webp" ["public/a.webp", "public/b.webp"]
      (by decide) (by decide) (by decide) (by decide)).2.1
      ⟨"public/b.webp", by decide, by decide⟩,
    ((c2_delete_markdown_failure_policy
      [("content/x.md", ('m' :: [])), ("public/a.webp", ('a' :: []))]
      "content/x.md" "public/images/thubnails/x.webp" ["public/a.webp"]
      (by decide) (by decide) (by decide) (by decide)).1 (by decide)
      (by decide)).1⟩

/-! ### Dedup ledger and step 1 of the pipeline (`get_all_ids`, `log_id`,
`step_1_scrape_news_feed`)

A ledger line either parses as a JSON record carrying an id (`some id`) or
is corrupt (`none`); `get_all_ids` collects the ids of the parsable lines,
and `log_id` appends one record per processed article.  `step_1` filters
the scraped feed by the recorded ids and logs every new article's `raw_id`
before fetching it. -/

structure NewsFeedItem where
  mk ::
  id : Int
  raw_id : String
  url : String
  thumbnail : String
  title : String
deriving DecidableEq

abbrev Ledger := List (Option String)

def get_all_ids (led : Ledger) : List String := led.filterMap (fun e => e)

def log_id (led : Ledger) (i : String) : Ledger := led ++ [some i]

/-- The id bookkeeping of `step_1_scrape_news_feed`: filter out already
processed articles, then log every remaining article's `raw_id`. -/
def step1Run (led : Ledger) (feed : List NewsFeedItem) :
    List NewsFeedItem × Ledger :=
  let fresh := feed.filter (fun a => !(decide (a.raw_id ∈ get_all_ids led)))
  (fresh, fresh.foldl (fun acc a => log_id acc a.raw_id) led)

theorem get_all_ids_foldl_log_mono :
    ∀ (items : List NewsFeedItem) (led : Ledger) (x : String),
      x ∈ get_all_ids led →
      x ∈ get_all_ids (items.foldl (fun acc a => log_id acc a.raw_id) led) := by
  intro items
  induction items with
  | nil =>
    intro led x hx
    exact hx
  | cons a items ih =>
    intro led x hx
    rw [List.foldl_cons]
    apply ih
    unfold get_all_ids log_id
    rw [List.filterMap_append]
    exact List.mem_append_left _ hx

/-- C7: an id already present in the dedup ledger is excluded from the
new-articles result set, the ledger only ever grows, and therefore an id
that has once appeared in the ledger is never in the new-articles set of a
later scrape run. -/
theorem c7_ledger_ids_never_refetched (led : Ledger) (feed : List NewsFeedItem) :
    (∀ a ∈ feed, a.raw_id ∈ get_all_ids led → a ∉ (step1Run led feed).1) ∧
    (∀ x ∈ get_all_ids led, x ∈ get_all_ids (step1Run led feed).2) ∧
    (∀ (feed2 : List NewsFeedItem) (x : String), x ∈ get_all_ids led →
      ∀ a ∈ (step1Run (step1Run led feed).2 feed2).1, a.raw_id ≠ x) := by
  refine ⟨?_, ?_, ?_⟩
  · intro a _ hid hmem
    have := List.of_mem_filter hmem
    rw [Bool.not_eq_eq_eq_not, Bool.not_true, decide_eq_false_iff_not] at this
    exact this hid
  · intro x hx
    exact get_all_ids_foldl_log_mono _ led x hx
  · intro feed2 x hx a hmem hax
    have hmono : x ∈ get_all_ids (step1Run led feed).2 :=
      get_all_ids_foldl_log_mono _ led x hx
    have := List.of_mem_filter hmem
    rw [Bool.not_eq_eq_eq_not, Bool.not_true, decide_eq_false_iff_not] at this
    rw [hax] at this
    exact this hmono

/-- Witness for C7 at a concrete ledger and feed. -/
theorem c7_ledger_ids_never_refetched_witness :
    ("seen" ∈ get_all_ids [some "seen", none]) ∧
    (NewsFeedItem.mk 1 "seen" "u" "t" "ti") ∉
      (step1Run [some "seen", none] [NewsFeedItem.mk 1 "seen" "u" "t" "ti",
        NewsFeedItem.mk 2 "new" "u2" "t2" "ti2"]).1 :=
  ⟨by decide,
    (c7_ledger_ids_never_refetched [some "seen", none]
      [NewsFeedItem.mk 1 "seen" "u" "t" "ti", NewsFeedItem.mk 2 "new" "u2" "t2" "ti2"]).1
      (NewsFeedItem.mk 1 "seen" "u" "t" "ti") (by decide) (by decide)⟩

/-! ### `update_group_ids_to_raw_id` and `_fallback_group_articles`

The raw scrape batch is a list of JSON records with an integer sequence
`id`, a string `raw_id` and a `thumbnail`.  Group member ids are either
sequence ids (integers, as produced by the AI grouping) or raw ids
(strings, as produced by the fallback grouping); the two kinds never
compare equal, exactly as a Python `int` never equals a `str` under the
dict lookups `id_to_raw_id.get` / `id_to_thumbnail.get`. -/

inductive GroupId where
  | seq : Int → GroupId
  | raw : String → GroupId
deriving DecidableEq

structure RawArticle where
  mk ::
  id : Int
  raw_id : String
  thumbnail : String
  title : String
deriving DecidableEq

structure ArticleGroup where
  mk ::
  title : String
  id : List GroupId
  thumbnail : String
deriving DecidableEq

/-- `{item['id']: item['raw_id']}[k]` with default: first match wins (the
scrape assigns distinct sequence ids). -/
def lookupRaw (raw : List RawArticle) (k : GroupId) : Option RawArticle :=
  raw.find? (fun it => decide (GroupId.seq it.id = k))

/-- `update_group_ids_to_raw_id`: overwrite each group's thumbnail with the
first member's scraped thumbnail (empty string when the lookup misses) and
map every member id through the sequence-id → raw-id table (keeping ids
that are not in the table). -/
def update_group_ids_to_raw_id (raw : List RawArticle) (groups : List ArticleGroup) :
    List ArticleGroup :=
  groups.map (fun g =>
    ArticleGroup.mk g.title
      (g.id.map (fun k =>
        match lookupRaw raw k with
        | some it => GroupId.raw it.raw_id
        | none => k))
      (match g.id with
        | [] => ""
        | k :: _ =>
          match lookupRaw raw k with
          | some it => it.thumbnail
          | none => ""))

/-- `_fallback_group_articles`: one singleton group per article, keyed by
`raw_id` and keeping the scraped title and thumbnail. -/
def fallback_group_articles (articles : List RawArticle) : List ArticleGroup :=
  articles.map (fun a => ArticleGroup.mk a.title [GroupId.raw a.raw_id] a.thumbnail)

theorem lookupRaw_raw_eq_none (raw : List RawArticle) (s : String) :
    lookupRaw raw (GroupId.raw s) = none := by
  apply List.find?_eq_none.mpr
  intro it _
  simp

/-- C10: the ID-remap post-process leaves raw-id group members unchanged
(they are never sequence ids of the batch) but overwrites each group's
thumbnail with the empty string; in particular the fallback grouping's
preserved thumbnails are all discarded. -/
theorem c10_remap_discards_fallback_thumbnails
    (raw : List RawArticle) (groups : List ArticleGroup)
    (hraw : ∀ g ∈ groups, ∀ k ∈ g.id, ∃ s, k = GroupId.raw s) :
    (update_group_ids_to_raw_id raw groups =
      groups.map (fun g => ArticleGroup.mk g.title g.id "")) ∧
    ∀ articles : List RawArticle,
      update_group_ids_to_raw_id raw (fallback_group_articles articles) =
        articles.map (fun a => ArticleGroup.mk a.title [GroupId.raw a.raw_id] "") := by
  constructor
  · unfold update_group_ids_to_raw_id
    apply List.map_congr_left
    intro g hg
    have hids : g.id.map (fun k =>
        match lookupRaw raw k with
        | some it => GroupId.raw it.raw_id
        | none => k) = g.id := by
      have : g.id.map (fun k =>
          match lookupRaw raw k with
          | some it => GroupId.raw it.raw_id
          | none => k) = g.id.map id := by
        apply List.map_congr_left
        intro k hk
        obtain ⟨s, hs⟩ := hraw g hg k hk
        subst hs
        rw [lookupRaw_raw_eq_none]
        rfl
      rw [this, List.map_id]
    have hth : (match g.id with
        | [] => ""
        | k :: _ =>
          match lookupRaw raw k with
          | some it => it.thumbnail
          | none => "") = "" := by
      rcases hid : g.id with _ | ⟨k, rest⟩
      · rfl
      · obtain ⟨s, hs⟩ := hraw g hg k (by rw [hid]; exact List.mem_cons_self k rest)
        subst hs
        show (match lookupRaw raw (GroupId.raw s) with
          | some it => it.thumbnail
          | none => "") = ""
        rw [lookupRaw_raw_eq_none]
    rw [hids, hth]
  · intro articles
    unfold update_group_ids_to_raw_id fallback_group_articles
    rw [List.map_map]
    apply List.map_congr_left
    intro a _
    simp only [Function.comp]
    simp [lookupRaw_raw_eq_none]

/-- Witness for C10 at a concrete batch and fallback grouping. -/
theorem c10_remap_discards_fallback_thumbnails_witness :
    update_group_ids_to_raw_id [RawArticle.mk 1 "abc" "http://t/1.jpg" "T"]
        (fallback_group_articles [RawArticle.mk 1 "abc" "http://t/1.jpg" "T"]) =
      [ArticleGroup.mk "T" [GroupId.raw "abc"] ""] :=
  (c10_remap_discards_fallback_thumbnails [RawArticle.mk 1 "abc" "http://t/1.jpg" "T"]
      (fallback_group_articles [RawArticle.mk 1 "abc" "http://t/1.jpg" "T"])
      (by
        intro g hg k hk
        have hg2 : g = ArticleGroup.mk "T" [GroupId.raw "abc"] "http://t/1.jpg" := by
          simpa [fallback_group_articles] using hg
        subst hg2
        have hk2 : k = GroupId.raw "abc" := by simpa using hk
        exact ⟨"abc", hk2⟩)).2 [RawArticle.mk 1 "abc" "http://t/1.jpg" "T"]

/-! ### Translation output naming (`translate_article_list`)

`sanitize_slug` is imported by `src/core/gemini.py` from `utils.file` but
its definition is not part of the sources; it is modelled from the spec
below.  `sanitize_yaml_value` is embedded from `src/utils/file.py`. -/

/-- Python's `\s` over ASCII text (also the default `str.strip` set). -/
def wsChar (c : Char) : Bool :=
  c = ' ' || c = '\t' || c = '\n' || c = '\r' || c = '\x0b' || c = '\x0c'

/-- ASCII lowercasing of a single character. -/
def lowerChar : Char → Char
  | 'A' => 'a' | 'B' => 'b' | 'C' => 'c' | 'D' => 'd' | 'E' => 'e' | 'F' => 'f'
  | 'G' => 'g' | 'H' => 'h' | 'I' => 'i' | 'J' => 'j' | 'K' => 'k' | 'L' => 'l'
  | 'M' => 'm' | 'N' => 'n' | 'O' => 'o' | 'P' => 'p' | 'Q' => 'q' | 'R' => 'r'
  | 'S' => 's' | 'T' => 't' | 'U' => 'u' | 'V' => 'v' | 'W' => 'w' | 'X' => 'x'
  | 'Y' => 'y' | 'Z' => 'z'
  | c => c

def slugChar (c : Char) : Prop := ('a' ≤ c ∧ c ≤ 'z') ∨ ('0' ≤ c ∧ c ≤ '9')

instance (c : Char) : Decidable (slugChar c) := by
  unfold slugChar
  infer_instance

/-- Lowercase a character, then keep it when it is URL-safe and replace it
by a hyphen otherwise. -/
def slugMapChar (c : Char) : Char :=
  if slugChar (lowerChar c) then lowerChar c else '-'

/-- Collapse runs of hyphens to a single hyphen. -/
def collapseHyphens : Str → Str
  | [] => []
  | [c] => [c]
  | c :: d :: s =>
    if c = '-' ∧ d = '-' then collapseHyphens (d :: s) else c :: collapseHyphens (d :: s)

def trimHyphens (s : Str) : Str :=
  ((s.dropWhile (fun c => c = '-')).reverse.dropWhile (fun c => c = '-')).reverse

/-- Modelled from the spec: `sanitize_slug` (missing from the sources, only
imported at `src/core/gemini.py` line 5) reduces the service's slug to a
URL-safe lowercase hyphenated token before it is used as a filename stem. -/
def sanitize_slug (s : Str) : Str :=
  trimHyphens (collapseHyphens (s.map slugMapChar))

/-- `sanitize_yaml_value` from `src/utils/file.py`: double quotes become
single quotes, control characters other than newline and tab are dropped,
YAML special characters are removed (each single-character `str.replace`
with the empty string is a filter), and the result is stripped. -/
def yamlSpecials : List Char :=
  [':', '\x7b', '\x7d', '[', ']', '&', '*', '!', '|', '>', '<', '%', '#', '\x60']

def pyStrip (s : Str) : Str :=
  ((s.dropWhile wsChar).reverse.dropWhile wsChar).reverse

def sanitize_yaml_value (s : Str) : Str :=
  pyStrip (((s.map (fun c => if c = '"' then '\'' else c)).filter
    (fun c => 32 ≤ c.toNat || c = '\n' || c = '\t')).filter
      (fun c => ¬ (c ∈ yamlSpecials)))

/-- A parsed translation-service response (`None` stands for a response the
loop skips: an error dict, unparsable JSON, or a non-dict). -/
structure TranslatedItem where
  mk ::
  title : Str
  slug : Str
  description : Str
  thumbnail : Str
  use : Bool
  content : Str

/-- The filenames written by `translate_article_list`: one per response
whose sanitized `title`, `slug`, `description` and `content` are all
non-empty, named `{slug}.md` from the sanitized slug.  (The output folder
prefix and written content are not modelled; only the naming is at stake.) -/
def translate_article_list (items : List (Option TranslatedItem)) : List String :=
  items.filterMap (fun it =>
    match it with
    | none => none
    | some t =>
      let title := sanitize_yaml_value t.title
      let slug := sanitize_slug t.slug
      let description := sanitize_yaml_value t.description
      if title = [] ∨ slug = [] ∨ description = [] ∨ t.content = [] then none
      else some (String.mk slug ++ ".md"))

theorem collapseHyphens_mem {s : Str} {c : Char} (h : c ∈ collapseHyphens s) :
    c ∈ s := by
  induction s with
  | nil => cases h
  | cons a s ih =>
    cases s with
    | nil => exact h
    | cons b s =>
      unfold collapseHyphens at h
      split at h
      · exact List.mem_cons_of_mem a (ih h)
      · rcases List.mem_cons.mp h with h | h
        · exact h ▸ List.mem_cons_self a _
        · exact List.mem_cons_of_mem a (ih h)

theorem trimHyphens_mem {s : Str} {c : Char} (h : c ∈ trimHyphens s) : c ∈ s := by
  unfold trimHyphens at h
  rw [List.mem_reverse] at h
  have h1 := (List.dropWhile_sublist _).mem h
  rw [List.mem_reverse] at h1
  exact (List.dropWhile_sublist _).mem h1

theorem sanitize_slug_chars {s : Str} {c : Char} (h : c ∈ sanitize_slug s) :
    slugChar c ∨ c = '-' := by
  unfold sanitize_slug at h
  have h1 := collapseHyphens_mem (trimHyphens_mem h)
  rw [List.mem_map] at h1
  obtain ⟨a, _, ha⟩ := h1
  subst ha
  unfold slugMapChar
  split
  · left
    assumption
  · right
    rfl

/-- C9: every file written to the translated-output stage is named from the
service slug reduced by `sanitize_slug` to a non-empty token made only of
lowercase ASCII letters, digits and hyphens, with `.md` appended. -/
theorem c9_output_names_use_sanitized_slug (items : List (Option TranslatedItem)) :
    ∀ name ∈ translate_article_list items, ∃ t : TranslatedItem,
      some t ∈ items ∧
      name = String.mk (sanitize_slug t.slug) ++ ".md" ∧
      sanitize_slug t.slug ≠ [] ∧
      ∀ c ∈ sanitize_slug t.slug,
        ('a' ≤ c ∧ c ≤ 'z') ∨ ('0' ≤ c ∧ c ≤ '9') ∨ c = '-' := by
  intro name hname
  unfold translate_article_list at hname
  rw [List.mem_filterMap] at hname
  obtain ⟨it, hit, heq⟩ := hname
  cases it with
  | none => cases heq
  | some t =>
    simp only at heq
    split at heq
    · cases heq
    · rename_i hcond
      push_neg at hcond
      refine ⟨t, hit, (Option.some_inj.mp heq).symm, hcond.2.1, ?_⟩
      intro c hc
      rcases sanitize_slug_chars hc with h | h
      · rcases h with h | h
        · exact Or.inl h
        · exact Or.inr (Or.inl h)
      · exact Or.inr (Or.inr h)

/-- Witness for C9 at a concrete service response. -/
theorem c9_output_names_use_sanitized_slug_witness :
    ("tin-tuc-moi.md" ∈ translate_article_list
      [some (TranslatedItem.mk ("Tin").data ("Tin Tuc  Moi!").data ("mo ta").data
        [] true ("noi dung").data)]) ∧
    ∃ t : TranslatedItem,
      some t ∈ [some (TranslatedItem.mk ("Tin").data ("Tin Tuc  Moi!").data
        ("mo ta").data [] true ("noi dung").data)] ∧
      "tin-tuc-moi.md" = String.mk (sanitize_slug t.slug) ++ ".md" ∧
      sanitize_slug t.slug ≠ [] ∧
      ∀ c ∈ sanitize_slug t.slug,
        ('a' ≤ c ∧ c ≤ 'z') ∨ ('0' ≤ c ∧ c ≤ '9') ∨ c = '-' :=
  ⟨by decide,
    c9_output_names_use_sanitized_slug
      [some (TranslatedItem.mk ("Tin").data ("Tin Tuc  Moi!").data ("mo ta").data
        [] true ("noi dung").data)]
      "tin-tuc-moi.md" (by decide)⟩

/-! ### The publish selector's release-flag regex (`copy_to_nextjs`)

`copy_to_nextjs` copies a Markdown file when

    re.compile(r'---\s*.*?use\s*:\s*true.*?---', re.DOTALL)

finds a match anywhere in the file's text.  With DOTALL, and `\s*` being
absorbable into `.*?`, the pattern matches exactly when some `---` is
followed (anywhere later) by `use`, whitespace, `:`, whitespace, `true`,
followed (anywhere later) by another `---`.  The scan below implements
that existence check; the characterization theorem below proves it equal
to the declarative decomposition. -/

def threeDash : Str := ['-', '-', '-']

/-- Python's `p in s` (substring test). -/
def containsStr (p : Str) : Str → Bool
  | [] => p.isEmpty
  | c :: s => p.isPrefixOf (c :: s) || containsStr p s

theorem containsStr_eq_true_iff {p s : Str} : containsStr p s = true ↔ p <:+: s := by
  induction s with
  | nil =>
    unfold containsStr
    rw [List.isEmpty_iff]
    constructor
    · intro h
      rw [h]
    · exact List.eq_nil_of_infix_nil
  | cons c s ih =>
    unfold containsStr
    rw [Bool.or_eq_true, prefixOf_iff, ih, List.infix_cons_iff]

/-- The remainder of `s` after the first occurrence of `p` (`none` when `p`
does not occur). -/
def findAfterStr (p : Str) : Str → Option Str
  | [] => if p.isEmpty then some [] else none
  | c :: s =>
    if p.isPrefixOf (c :: s) then some (List.drop (p.length - 1) s)
    else findAfterStr p s

/-- The text of `s` before the first occurrence of `p` (`none` when `p`
does not occur). -/
def takeUntilStr (p : Str) : Str → Option Str
  | [] => if p.isEmpty then some [] else none
  | c :: s =>
    if p.isPrefixOf (c :: s) then some []
    else (takeUntilStr p s).map (fun t => c :: t)

theorem findAfterStr_cons (p : Str) (c : Char) (s : Str) :
    findAfterStr p (c :: s) =
      if p.isPrefixOf (c :: s) then some (List.drop (p.length - 1) s)
      else findAfterStr p s := rfl

theorem takeUntilStr_cons (p : Str) (c : Char) (s : Str) :
    takeUntilStr p (c :: s) =
      if p.isPrefixOf (c :: s) then some []
      else (takeUntilStr p s).map (fun t => c :: t) := rfl

theorem isEmpty_false_of_ne_nil {p : Str} (hp : p ≠ []) : p.isEmpty = false := by
  rw [Bool.eq_false_iff]
  intro hc
  exact hp (List.isEmpty_iff.mp hc)

theorem findAfterStr_sound {p : Str} (hp : p ≠ []) :
    ∀ {s r : Str}, findAfterStr p s = some r → ∃ a, s = a ++ p ++ r := by
  intro s
  induction s with
  | nil =>
    intro r h
    unfold findAfterStr at h
    rw [isEmpty_false_of_ne_nil hp] at h
    cases h
  | cons c s ih =>
    intro r h
    rw [findAfterStr_cons] at h
    by_cases hpre : p.isPrefixOf (c :: s) = true
    · rw [if_pos hpre] at h
      have hr : r = List.drop (p.length - 1) s := (Option.some_inj.mp h).symm
      cases p with
      | nil => exact absurd rfl hp
      | cons d t =>
        obtain ⟨hd, ht⟩ := List.cons_prefix_cons.mp (prefixOf_iff.mp hpre)
        obtain ⟨v, hv⟩ := ht
        have hrv : r = v := by
          rw [hr, ← hv]
          simp only [List.length_cons, Nat.add_sub_cancel, List.drop_left]
        refine ⟨[], ?_⟩
        simp only [List.nil_append, hrv, List.cons_append, hd]
        rw [hv]
    · rw [if_neg hpre] at h
      obtain ⟨a, ha⟩ := ih h
      exact ⟨c :: a, by rw [ha]; rfl⟩

theorem findAfterStr_complete {p : Str} (hp : p ≠ []) :
    ∀ (a b : Str), ∃ r, findAfterStr p (a ++ p ++ b) = some r ∧ b <:+ r := by
  intro a
  induction a with
  | nil =>
    intro b
    cases p with
    | nil => exact absurd rfl hp
    | cons d t =>
      refine ⟨b, ?_, List.suffix_refl b⟩
      rw [List.nil_append, List.cons_append, findAfterStr_cons,
        if_pos (show (d :: t).isPrefixOf (d :: (t ++ b)) = true from
          prefixOf_iff.mpr ⟨b, rfl⟩)]
      simp only [List.length_cons, Nat.add_sub_cancel, List.drop_left]
  | cons c a ih =>
    intro b
    have hshape : (c :: a) ++ p ++ b = c :: (a ++ p ++ b) := by simp
    by_cases hpre : p.isPrefixOf (c :: (a ++ p ++ b)) = true
    · refine ⟨List.drop (p.length - 1) (a ++ p ++ b), ?_, ?_⟩
      · rw [hshape, findAfterStr_cons, if_pos hpre]
      · have h1 : b <:+ (c :: (a ++ p ++ b)) := by
          rw [← hshape]
          exact List.suffix_append _ b
        have h2 : List.drop (p.length - 1) (a ++ p ++ b) <:+ (c :: (a ++ p ++ b)) :=
          List.IsSuffix.trans (List.drop_suffix _ _) (List.suffix_cons c _)
        apply List.suffix_of_suffix_length_le h1 h2
        have hlen := List.IsPrefix.length_le (prefixOf_iff.mp hpre)
        simp only [List.length_cons, List.length_append] at hlen
        simp only [List.length_drop, List.length_append]
        omega
    · obtain ⟨r, hr, hb⟩ := ih b
      refine ⟨r, ?_, hb⟩
      rw [hshape, findAfterStr_cons, if_neg hpre]
      exact hr

def useStr : Str := ('u' :: 's' :: 'e' :: [])

def trueStr : Str := ('t' :: 'r' :: 'u' :: 'e' :: [])

def AllWs (w : Str) : Prop := ∀ c ∈ w, wsChar c = true

instance (w : Str) : Decidable (AllWs w) := by
  unfold AllWs
  infer_instance

/-- Does `use\s*:\s*true` match at the head of `s`?  If so, return the rest. -/
def afterUseKey (s : Str) : Option Str :=
  if useStr.isPrefixOf s then
    match List.dropWhile wsChar (s.drop 3) with
    | ':' :: s2 =>
      if trueStr.isPrefixOf (List.dropWhile wsChar s2) then
        some ((List.dropWhile wsChar s2).drop 4)
      else none
    | _ => none
  else none

theorem dropWhile_ws_append {w x : Str} (hw : AllWs w) :
    List.dropWhile wsChar (w ++ x) = List.dropWhile wsChar x := by
  induction w with
  | nil => rfl
  | cons c w ih =>
    rw [List.cons_append, List.dropWhile_cons,
      if_pos (hw c (List.mem_cons_self c w)),
      ih (fun d hd => hw d (List.mem_cons_of_mem c hd))]

theorem afterUseKey_sound {s r : Str} (h : afterUseKey s = some r) :
    ∃ w1 w2, AllWs w1 ∧ AllWs w2 ∧
      s = useStr ++ (w1 ++ (':' :: (w2 ++ (trueStr ++ r)))) := by
  unfold afterUseKey at h
  split at h
  · rename_i hpre
    split at h
    · rename_i s2 heq
      split at h
      · rename_i htr
        obtain ⟨v, hv⟩ := prefixOf_iff.mp htr
        have hr : r = v := by
          have h4 : (List.dropWhile wsChar s2).drop 4 = v := by
            rw [← hv]
            exact List.drop_left trueStr v
          rw [← h4]
          exact (Option.some_inj.mp h).symm
        obtain ⟨u, hu⟩ := prefixOf_iff.mp hpre
        have hu3 : s.drop 3 = u := by
          rw [← hu]
          exact List.drop_left useStr u
        refine ⟨List.takeWhile wsChar (s.drop 3), List.takeWhile wsChar s2,
          fun c hc => List.mem_takeWhile_imp hc,
          fun c hc => List.mem_takeWhile_imp hc, ?_⟩
        have hd1 : s.drop 3 = List.takeWhile wsChar (s.drop 3) ++ (':' :: s2) := by
          conv_lhs => rw [← List.takeWhile_append_dropWhile wsChar (s.drop 3)]
          rw [heq]
        have hd2 : s2 = List.takeWhile wsChar s2 ++ (trueStr ++ r) := by
          conv_lhs => rw [← List.takeWhile_append_dropWhile wsChar s2]
          rw [← hv, hr]
        rw [← hd2, ← hd1, hu3, ← hu]
      · cases h
    · cases h
  · cases h

theorem afterUseKey_complete (w1 w2 r : Str) (h1 : AllWs w1) (h2 : AllWs w2) :
    afterUseKey (useStr ++ (w1 ++ (':' :: (w2 ++ (trueStr ++ r))))) = some r := by
  unfold afterUseKey
  rw [if_pos (prefixOf_iff.mpr (List.prefix_append useStr _))]
  have hd3 : (useStr ++ (w1 ++ (':' :: (w2 ++ (trueStr ++ r))))).drop 3 =
      w1 ++ (':' :: (w2 ++ (trueStr ++ r))) := List.drop_left useStr _
  rw [hd3, dropWhile_ws_append h1, List.dropWhile_cons]
  have hcolon : wsChar ':' = false := rfl
  rw [hcolon]
  simp only [Bool.false_eq_true, if_false]
  rw [dropWhile_ws_append h2]
  have htrue : List.dropWhile wsChar (trueStr ++ r) = trueStr ++ r := by
    rw [show trueStr ++ r = 't' :: ('r' :: 'u' :: 'e' :: r) from rfl, List.dropWhile_cons]
    rw [show wsChar 't' = false from rfl]
    simp
  rw [htrue, if_pos (prefixOf_iff.mpr (List.prefix_append trueStr r))]
  rw [show (4 : Nat) = trueStr.length from rfl, List.drop_left trueStr r]

/-- Is there a position where `use\s*:\s*true` matches, with a `---`
somewhere after it? -/
def keyThenDash : Str → Bool
  | [] => false
  | c :: s =>
    (match afterUseKey (c :: s) with
      | some r => containsStr threeDash r
      | none => false) || keyThenDash s

/-- The release-flag regex search of `copy_to_nextjs`:
`re.search(r'---\s*.*?use\s*:\s*true.*?---', content, re.DOTALL)`. -/
def usedPatternSearch (content : Str) : Bool :=
  match findAfterStr threeDash content with
  | none => false
  | some rest => keyThenDash rest

/-- The set of Markdown files `copy_to_nextjs` copies (by name). -/
def copy_to_nextjs (files : List (String × Str)) : List String :=
  (files.filter (fun e => usedPatternSearch e.2)).map (fun e => e.1)

/-- Is there a position where `use\s*:\s*true` matches (no trailing `---`
required)? -/
def keyAnywhere : Str → Bool
  | [] => false
  | c :: s => (afterUseKey (c :: s)).isSome || keyAnywhere s

/-- The literal frontmatter block: the text between the first `---` and the
next `---`. -/
def extractFrontmatter (content : Str) : Option Str :=
  match findAfterStr threeDash content with
  | none => none
  | some rest => takeUntilStr threeDash rest

/-- Modelled from the spec: the release flag matched against the literal
frontmatter block only — `use: true` inside the frontmatter, occurrences in
the body ignored.  This is the behaviour the spec ascribes to the publish
selector, for comparison with `usedPatternSearch`. -/
def spec_frontmatter_use_true (content : Str) : Bool :=
  match extractFrontmatter content with
  | none => false
  | some fm => keyAnywhere fm

theorem keyThenDash_sound :
    ∀ {s : Str}, keyThenDash s = true →
      ∃ t r, t <:+ s ∧ afterUseKey t = some r ∧ containsStr threeDash r = true := by
  intro s
  induction s with
  | nil =>
    intro h
    cases h
  | cons c s ih =>
    intro h
    unfold keyThenDash at h
    rw [Bool.or_eq_true] at h
    rcases h with h | h
    · rcases hk : afterUseKey (c :: s) with _ | r
      · rw [hk] at h
        cases h
      · rw [hk] at h
        exact ⟨c :: s, r, List.suffix_refl _, hk, h⟩
    · obtain ⟨t, r, ht, hk, hc⟩ := ih h
      exact ⟨t, r, List.IsSuffix.trans ht (List.suffix_cons c s), hk, hc⟩

theorem keyThenDash_complete :
    ∀ {s t r : Str}, t <:+ s → afterUseKey t = some r →
      containsStr threeDash r = true → keyThenDash s = true := by
  intro s
  induction s with
  | nil =>
    intro t r ht hk _
    rw [List.suffix_nil.mp ht] at hk
    cases hk
  | cons c s ih =>
    intro t r ht hk hc
    unfold keyThenDash
    rw [Bool.or_eq_true]
    rcases List.suffix_cons_iff.mp ht with h | h
    · subst h
      rw [hk]
      exact Or.inl hc
    · exact Or.inr (ih h hk hc)

/-- C5 amended, part 1: the release-flag test of `copy_to_nextjs` succeeds
exactly when a `use\s*:\s*true` occurrence is preceded by some `---` and
followed by some later `---` — anywhere in the file, frontmatter or body. -/
theorem usedPatternSearch_iff (content : Str) :
    usedPatternSearch content = true ↔
      ∃ a b w1 w2 c d, AllWs w1 ∧ AllWs w2 ∧
        content = a ++ threeDash ++
          (b ++ (useStr ++ (w1 ++ (':' :: (w2 ++ (trueStr ++ (c ++ threeDash ++ d))))))) := by
  have hdash : threeDash ≠ [] := by decide
  constructor
  · intro h
    unfold usedPatternSearch at h
    rcases hf : findAfterStr threeDash content with _ | rest
    · rw [hf] at h
      cases h
    · rw [hf] at h
      obtain ⟨a, ha⟩ := findAfterStr_sound hdash hf
      obtain ⟨t, r, ht, hk, hc⟩ := keyThenDash_sound h
      obtain ⟨b, hb⟩ := ht
      obtain ⟨w1, w2, h1, h2, hkey⟩ := afterUseKey_sound hk
      obtain ⟨x, y, hxy⟩ := containsStr_eq_true_iff.mp hc
      refine ⟨a, b, w1, w2, x, y, h1, h2, ?_⟩
      rw [ha, ← hb, hkey, hxy]
  · intro h
    obtain ⟨a, b, w1, w2, c, d, h1, h2, hcontent⟩ := h
    unfold usedPatternSearch
    have hkey := afterUseKey_complete w1 w2 (c ++ threeDash ++ d) h1 h2
    obtain ⟨rest, hrest, hsuf⟩ := findAfterStr_complete hdash a
      (b ++ (useStr ++ (w1 ++ (':' :: (w2 ++ (trueStr ++ (c ++ threeDash ++ d)))))))
    rw [hcontent, hrest]
    have htsub : (useStr ++ (w1 ++ (':' :: (w2 ++ (trueStr ++ (c ++ threeDash ++ d))))))
        <:+ rest :=
      List.IsSuffix.trans ⟨b, rfl⟩ hsuf
    apply keyThenDash_complete htsub hkey
    rw [containsStr_eq_true_iff]
    exact ⟨c, d, rfl⟩

/-- C5 counterexample: a document whose frontmatter says `use: false` but
whose body quotes `use: true` before a later `---` (for example a
horizontal rule) is copied by `copy_to_nextjs`, although the release flag
does not occur in the literal frontmatter block.  The regex is searched
over the whole file, not the frontmatter block. -/
theorem c5_body_use_true_copied_counterexample :
    spec_frontmatter_use_true
      ("---\ntitle: a\nuse: false\n---\nThe body quotes use: true here.\n\n---\nfooter").data
      = false ∧
    usedPatternSearch
      ("---\ntitle: a\nuse: false\n---\nThe body quotes use: true here.\n\n---\nfooter").data
      = true ∧
    copy_to_nextjs [("doc.md",
      ("---\ntitle: a\nuse: false\n---\nThe body quotes use: true here.\n\n---\nfooter").data)]
      = ["doc.md"] := by
  refine ⟨by decide, by decide, ?_⟩
  rfl

/-- C5 amended: a Markdown file is copied by the publish selector exactly
when the DOTALL regex matches, i.e. when some `use` `\s*` `:` `\s*` `true`
occurrence is preceded by some `---` and followed by some later `---` —
anywhere in the file.  Frontmatter `use: true` always satisfies this (the
frontmatter is `---`-delimited), but a body occurrence flanked by `---`
markers also causes a copy even when the frontmatter says `use: false`. -/
theorem c5_release_flag_matched_anywhere :
    (∀ content : Str, usedPatternSearch content = true ↔
      ∃ a b w1 w2 c d, AllWs w1 ∧ AllWs w2 ∧
        content = a ++ threeDash ++
          (b ++ (useStr ++ (w1 ++ (':' :: (w2 ++ (trueStr ++ (c ++ threeDash ++ d)))))))) ∧
    (∀ (files : List (String × Str)) (name : String),
      name ∈ copy_to_nextjs files ↔
        ∃ content, (name, content) ∈ files ∧ usedPatternSearch content = true) := by
  constructor
  · exact usedPatternSearch_iff
  · intro files name
    unfold copy_to_nextjs
    rw [List.mem_map]
    constructor
    · rintro ⟨e, he, hname⟩
      rw [List.mem_filter] at he
      refine ⟨e.2, ?_, he.2⟩
      rw [← hname]
      exact he.1
    · rintro ⟨content, hmem, hsearch⟩
      exact ⟨(name, content), List.mem_filter.mpr ⟨hmem, hsearch⟩, rfl⟩

/-- Witness for the amended C5: a frontmatter `use: true` document is
copied. -/
theorem c5_release_flag_matched_anywhere_witness :
    "front.md" ∈ copy_to_nextjs
      [("front.md", ("---\ntitle: a\nuse: true\n---\nbody").data)] :=
  (c5_release_flag_matched_anywhere.2
    [("front.md", ("---\ntitle: a\nuse: true\n---\nbody").data)] "front.md").mpr
    ⟨("---\ntitle: a\nuse: true\n---\nbody").data, by decide, by decide⟩

/-! ### Inline image processing (`_process_inline_images`,
`delete_remote_images`)

The regex scan for `![alt](url)` / `<img src="url">` is modelled as a
match-list parameter (pairs of full matched markup and captured URL, in
scan order); the replacement bookkeeping — the skip conditions, the
failure policy and the final substitution passes — is embedded exactly. -/

/-- `image_url.startswith(('/', '.', 'data'))`. -/
def localPrefixed (url : Str) : Bool :=
  ['/'].isPrefixOf url || ['.'].isPrefixOf url || ("data").data.isPrefixOf url

/-- One iteration of the match loop of `_process_inline_images`: skip local
and already-seen URLs; a successful download records the local path, a
failed download or transcode records the empty string. -/
def replStep (download : Str → Option Str) (acc : List (Str × Str)) (m : Str × Str) :
    List (Str × Str) :=
  if localPrefixed m.2 || acc.any (fun e => e.1 = m.2) then acc
  else
    match download m.2 with
    | some path => acc ++ [(m.2, path)]
    | none => acc ++ [(m.2, [])]

def buildReplacements (ms : List (Str × Str)) (download : Str → Option Str) :
    List (Str × Str) :=
  ms.foldl (replStep download) []

/-- `_process_inline_images`: build the replacement map in scan order, then
substitute every recorded URL throughout the body (failed ones by the empty
string), returning the new body and the number of replacements. -/
def processInlineImages (content : Str) (ms : List (Str × Str))
    (download : Str → Option Str) : Str × Nat :=
  ((buildReplacements ms download).foldl (fun c e => replaceAll e.1 e.2 c) content,
    (buildReplacements ms download).length)

/-- The removal test of `delete_remote_images`:
`image_url and not image_url.startswith(('/', '.', 'data')) and '://' in image_url`. -/
def isRemoteUrl (url : Str) : Bool :=
  !url.isEmpty && !localPrefixed url && containsStr ("://").data url

/-- `delete_remote_images`: remove every occurrence of the full markup of
each scanned reference whose URL passes the remote test. -/
def deleteRemoteImages (content : Str) (ms : List (Str × Str)) : Str :=
  ms.foldl (fun c m => if isRemoteUrl m.2 then replaceAll m.1 [] c else c) content

theorem mem_replStep {download : Str → Option Str} {acc : List (Str × Str)}
    {m x : Str × Str} (h : x ∈ acc) : x ∈ replStep download acc m := by
  unfold replStep
  split
  · exact h
  · split
    · exact List.mem_append_left _ h
    · exact List.mem_append_left _ h

theorem mem_foldl_replStep {download : Str → Option Str} :
    ∀ (ms : List (Str × Str)) (acc : List (Str × Str)) (x : Str × Str),
      x ∈ acc → x ∈ ms.foldl (replStep download) acc := by
  intro ms
  induction ms with
  | nil =>
    intro acc x h
    exact h
  | cons m ms ih =>
    intro acc x h
    rw [List.foldl_cons]
    exact ih _ x (mem_replStep h)

theorem buildReplacements_records_failure_aux {download : Str → Option Str} {url : Str}
    (hlocal : localPrefixed url = false) (hdl : download url = none) :
    ∀ (ms : List (Str × Str)) (acc : List (Str × Str)),
      ((∃ full, (full, url) ∈ ms) ∧ acc.any (fun e => e.1 = url) = false) ∨
        (url, []) ∈ acc →
      (url, []) ∈ ms.foldl (replStep download) acc := by
  intro ms
  induction ms with
  | nil =>
    intro acc h
    rcases h with ⟨⟨full, hmem⟩, _⟩ | hin
    · cases hmem
    · exact hin
  | cons m ms ih =>
    intro acc h
    rw [List.foldl_cons]
    rcases h with ⟨⟨full, hmem⟩, hkey⟩ | hin
    · rcases List.mem_cons.mp hmem with heq | hmem'
      · have hm2 : m.2 = url := by rw [← heq]
        apply mem_foldl_replStep
        unfold replStep
        rw [hm2, hlocal, hkey, hdl]
        simp only [Bool.or_self, Bool.false_eq_true, if_false]
        exact List.mem_append_right _ (List.mem_cons_self _ _)
      · by_cases hnew : (replStep download acc m).any (fun e => e.1 = url) = true
        · apply ih
          right
          unfold replStep at hnew ⊢
          split at hnew
          · rw [hnew] at hkey
            cases hkey
          · rename_i hcond
            split at hnew
            · rename_i path hpath
              rw [List.any_append] at hnew
              rw [Bool.or_eq_true] at hnew
              rcases hnew with hnew | hnew
              · rw [hnew] at hkey
                cases hkey
              · simp only [List.any_cons, List.any_nil, Bool.or_false,
                  decide_eq_true_eq] at hnew
                rw [hnew] at hpath
                rw [hpath] at hdl
                cases hdl
            · rename_i hpath
              rw [List.any_append] at hnew
              rw [Bool.or_eq_true] at hnew
              rcases hnew with hnew | hnew
              · rw [hnew] at hkey
                cases hkey
              · simp only [List.any_cons, List.any_nil, Bool.or_false,
                  decide_eq_true_eq] at hnew
                rw [hnew, hlocal, hkey]
                simp only [Bool.or_self, Bool.false_eq_true, if_false]
                exact List.mem_append_right _ (List.mem_cons_self _ _)
        · apply ih
          left
          refine ⟨⟨full, hmem'⟩, ?_⟩
          rw [Bool.not_eq_true] at hnew
          exact hnew
    · exact ih _ (Or.inr (mem_replStep hin))

theorem noMatch_of_all {p a x : Str}
    (h : (a.tails.all fun t => t.isEmpty || !(p.isPrefixOf (t ++ x))) = true) :
    NoMatch p a x := by
  intro t ht htne hpre
  have hb := List.all_eq_true.mp h t ((List.mem_tails t a).mpr ht)
  cases t with
  | nil => exact htne rfl
  | cons c ts =>
    rw [prefixOf_iff.mpr hpre] at hb
    simp at hb

theorem noPrefixSuffix_of_all {p b : Str}
    (h : (b.tails.all fun t => t.isEmpty || !(p.isPrefixOf t)) = true) :
    ∀ t, t <:+ b → t ≠ [] → ¬ p <+: t := by
  intro t ht htne hpre
  have hb := List.all_eq_true.mp h t ((List.mem_tails t b).mpr ht)
  cases t with
  | nil => exact htne rfl
  | cons c ts =>
    rw [prefixOf_iff.mpr hpre] at hb
    simp at hb

theorem replaceAll_self {p r b : Str}
    (h : ∀ t, t <:+ b → t ≠ [] → ¬ p <+: t) : replaceAll p r b = b := by
  induction b with
  | nil => rfl
  | cons c b ih =>
    rw [replaceAll_cons_neg r (h (c :: b) (List.suffix_refl _) (by simp))]
    rw [ih (fun t ht htne => h t (List.IsSuffix.trans ht (List.suffix_cons c b)) htne)]

theorem replaceAll_single_occurrence {p r a b : Str} (hp : p ≠ [])
    (h1 : NoMatch p a (p ++ b)) (h2 : ∀ t, t <:+ b → t ≠ [] → ¬ p <+: t) :
    replaceAll p r (a ++ (p ++ b)) = a ++ (r ++ b) := by
  rw [replaceAll_append_left r h1, replaceAll_head r b hp, replaceAll_self h2]

/-- C6 counterexample: with the download of `http://a/b.png` failing, the
body `![pic](http://a/b.png)` becomes `![pic]()` — the image reference is
not removed entirely, its empty-URL markup husk stays — and the second
pass (`delete_remote_images`) leaves that husk in place, because an empty
URL fails its remote test. -/
theorem c6_failed_image_reference_not_removed_entirely :
    (processInlineImages ("![pic](http://a/b.png)").data
        [(("![pic](http://a/b.png)").data, ("http://a/b.png").data)]
        (fun _ => none)).1 = ("![pic]()").data ∧
    ("![pic]()").data ≠ [] ∧
    deleteRemoteImages ("![pic]()").data [(("![pic]()").data, [])] = ("![pic]()").data := by
  refine ⟨by decide, by decide, ?_⟩
  rfl

/-- C6 amended: a URL whose download or transcode fails is recorded with
the empty string as its replacement, so its occurrences are blanked (the
surrounding markup stays, with an empty target); for a body holding one
occurrence of one failing remote URL, processing yields exactly the body
with the URL text excised.  The second pass removes a scanned reference's
full markup only when its URL is non-empty, lacks a local prefix
(`/`, `.`, `data`) and contains `://`; in particular an emptied reference
is never removed by it. -/
theorem c6_failed_downloads_blank_url_occurrences :
    (∀ (ms : List (Str × Str)) (download : Str → Option Str) (full url : Str),
      (full, url) ∈ ms → localPrefixed url = false → download url = none →
      (url, []) ∈ buildReplacements ms download) ∧
    (∀ (a b url : Str) (download : Str → Option Str),
      url ≠ [] → localPrefixed url = false → download url = none →
      NoMatch url a (url ++ b) → (∀ t, t <:+ b → t ≠ [] → ¬ url <+: t) →
      ∀ full, (processInlineImages (a ++ (url ++ b)) [(full, url)] download).1 = a ++ b) ∧
    (∀ (a b full url : Str), full ≠ [] → isRemoteUrl url = true →
      NoMatch full a (full ++ b) → (∀ t, t <:+ b → t ≠ [] → ¬ full <+: t) →
      deleteRemoteImages (a ++ (full ++ b)) [(full, url)] = a ++ b) ∧
    (∀ (content full : Str), deleteRemoteImages content [(full, [])] = content) := by
  refine ⟨?_, ?_, ?_, ?_⟩
  · intro ms download full url hmem hlocal hdl
    exact buildReplacements_records_failure_aux hlocal hdl ms []
      (Or.inl ⟨⟨full, hmem⟩, rfl⟩)
  · intro a b url download hne hlocal hdl h1 h2 full
    have hrepl : buildReplacements [(full, url)] download = [(url, [])] := by
      unfold buildReplacements replStep
      rw [List.foldl_cons, List.foldl_nil]
      simp only [List.any_nil, Bool.or_false, hlocal, Bool.false_eq_true, if_false, hdl]
      rfl
    unfold processInlineImages
    rw [hrepl]
    simp only [List.foldl_cons, List.foldl_nil]
    rw [@replaceAll_single_occurrence url [] a b hne h1 h2, List.nil_append]
  · intro a b full url hne hremote h1 h2
    unfold deleteRemoteImages
    rw [List.foldl_cons, List.foldl_nil, if_pos hremote]
    rw [@replaceAll_single_occurrence full [] a b hne h1 h2, List.nil_append]
  · intro content full
    unfold deleteRemoteImages
    rw [List.foldl_cons, List.foldl_nil]
    rw [if_neg (by rw [show isRemoteUrl [] = false from rfl]; exact Bool.false_ne_true)]

/-- Witness for the amended C6 at a concrete body with one failing remote
image URL: the URL text is excised, nothing else changes. -/
theorem c6_failed_downloads_blank_url_occurrences_witness :
    (processInlineImages
        (("alt text ").data ++ (("http://x/y.png").data ++ (" tail").data))
        [(("![p](http://x/y.png)").data, ("http://x/y.png").data)]
        (fun _ => none)).1 = ("alt text ").data ++ (" tail").data :=
  c6_failed_downloads_blank_url_occurrences.2.1 ("alt text ").data (" tail").data
    ("http://x/y.png").data (fun _ => none) (by decide) (by decide) rfl
    (noMatch_of_all (by decide)) (noPrefixSuffix_of_all (by decide))
    ("![p](http://x/y.png)").data

/-! ### Retention cleanup (`cleanup_old_markdown_files`)

Per file: extract the frontmatter with `---\s*(.*?)\s*---` (DOTALL) — the
text between the first `---` and the next one; search it for
`created_at\s*:\s*["\']?(\d{4}-\d{2}-\d{2})`; `strptime` the captured date
(raising `ValueError`, uncaught, on a date-shaped but invalid string); and
call `delete_nextjs_markdown_file` when the date is older than
`datetime.now() - timedelta(days=30)`.  Instants are microseconds on an
arbitrary epoch; `civilDays` is the civil day number of a date, so a
`datetime` at midnight is `civilDays y m d * dayUs` and comparisons of
`datetime`s agree with integer comparisons. -/

def digitVal (c : Char) : Option Nat :=
  if '0' ≤ c ∧ c ≤ '9' then some (c.toNat - 48) else none

def parseNDigits : Nat → Nat → Str → Option (Nat × Str)
  | 0, acc, s => some (acc, s)
  | _ + 1, _, [] => none
  | n + 1, acc, c :: s =>
    match digitVal c with
    | some d => parseNDigits n (acc * 10 + d) s
    | none => none

def createdAtStr : Str := ("created_at").data

/-- Does `created_at\s*:\s*["\']?(\d{4}-\d{2}-\d{2})` match at the head?
(A quote not followed by a date fails with or without consuming the quote,
so consuming an optional quote is equivalent to the regex backtracking.) -/
def matchCreatedAt (s : Str) : Option (Nat × Nat × Nat) :=
  if createdAtStr.isPrefixOf s then
    match List.dropWhile wsChar (s.drop 10) with
    | ':' :: s2 =>
      let s3 := List.dropWhile wsChar s2
      let s4 := match s3 with
        | '"' :: r => r
        | '\'' :: r => r
        | _ => s3
      match parseNDigits 4 0 s4 with
      | some (y, '-' :: s5) =>
        match parseNDigits 2 0 s5 with
        | some (m, '-' :: s6) =>
          match parseNDigits 2 0 s6 with
          | some (d, _) => some (y, m, d)
          | none => none
        | _ => none
      | _ => none
    | _ => none
  else none

/-- `re.search` of the `created_at` pattern: leftmost match. -/
def searchCreatedAt : Str → Option (Nat × Nat × Nat)
  | [] => none
  | c :: s =>
    match matchCreatedAt (c :: s) with
    | some v => some v
    | none => searchCreatedAt s

def isLeap (y : Nat) : Bool := (y % 4 = 0 && ¬ y % 100 = 0) || y % 400 = 0

def daysInMonth (y m : Nat) : Nat :=
  match m with
  | 1 => 31 | 2 => if isLeap y then 29 else 28 | 3 => 31 | 4 => 30 | 5 => 31
  | 6 => 30 | 7 => 31 | 8 => 31 | 9 => 30 | 10 => 31 | 11 => 30 | 12 => 31
  | _ => 0

/-- The dates `datetime.strptime(_, '%Y-%m-%d')` accepts. -/
def validDate (y m d : Nat) : Bool :=
  1 ≤ y && y ≤ 9999 && 1 ≤ m && m ≤ 12 && 1 ≤ d && d ≤ daysInMonth y m

/-- Civil day number of a proleptic Gregorian date (Hinnant's
`days_from_civil`), the model of `datetime` ordering at day granularity. -/
def civilDays (y m d : Nat) : Int :=
  let y2 := if m ≤ 2 then y - 1 else y
  let era := y2 / 400
  let yoe := y2 - era * 400
  let mp := (m + 9) % 12
  let doy := (153 * mp + 2) / 5 + (d - 1)
  let doe := yoe * 365 + yoe / 4 - yoe / 100 + doy
  ((era * 146097 + doe : Nat) : Int) - 719468

def dayUs : Int := 86400000000

/-- The per-file decision of `cleanup_old_markdown_files`, given the
current instant in microseconds: `ok true` = delete, `ok false` = skip,
`error` = the uncaught `ValueError` from `strptime` on a date-shaped but
invalid `created_at`. -/
def cleanupDecision (content : Str) (nowUs : Int) : Except Unit Bool :=
  match extractFrontmatter content with
  | none => Except.ok false
  | some fm =>
    match searchCreatedAt fm with
    | none => Except.ok false
    | some (y, m, d) =>
      if validDate y m d then
        Except.ok (decide (civilDays y m d * dayUs < nowUs - 30 * dayUs))
      else Except.error ()

/-- One file of the cleanup pass: decide by `created_at`, then delete via
`delete_nextjs_markdown_file`. -/
def cleanupFile (fs : FS) (content : Str) (nowUs : Int)
    (markdownPath thumbnailPath : String) (images : List String) :
    Except Unit (FS × Bool) :=
  match cleanupDecision content nowUs with
  | Except.error e => Except.error e
  | Except.ok true =>
    Except.ok (deleteNextjsMarkdownFile fs markdownPath thumbnailPath images)
  | Except.ok false => Except.ok (fs, false)

/-- Successful full deletion: with distinct paths, deduplicated image list
and all images present, the deletion returns `True` and the Markdown file,
the thumbnail and every image are gone. -/
theorem deleteNextjs_success (fs : FS) (markdownPath thumbnailPath : String)
    (images : List String) (hmd_img : markdownPath ∉ images)
    (hmd_th : markdownPath ≠ thumbnailPath) (hth_img : thumbnailPath ∉ images)
    (hnd : images.Nodup) (hall : ∀ i ∈ images, fsHas fs i = true) :
    (deleteNextjsMarkdownFile fs markdownPath thumbnailPath images).2 = true ∧
    fsHas (deleteNextjsMarkdownFile fs markdownPath thumbnailPath images).1
      markdownPath = false ∧
    fsHas (deleteNextjsMarkdownFile fs markdownPath thumbnailPath images).1
      thumbnailPath = false ∧
    ∀ i ∈ images, fsHas (deleteNextjsMarkdownFile fs markdownPath thumbnailPath images).1
      i = false := by
  have hth0 : fsHas (if fsHas fs thumbnailPath then fsRemove fs thumbnailPath else fs)
      thumbnailPath = false := by
    by_cases h : fsHas fs thumbnailPath = true
    · rw [if_pos h]
      exact fsHas_remove_self fs thumbnailPath
    · rw [if_neg h]
      rw [Bool.not_eq_true] at h
      exact h
  have hall1 : ∀ i ∈ images,
      fsHas (if fsHas fs thumbnailPath then fsRemove fs thumbnailPath else fs) i = true := by
    intro i hi
    by_cases h : fsHas fs thumbnailPath = true
    · rw [if_pos h, fsHas_remove_ne (fun hc => hth_img (by rw [← hc]; exact hi))]
      exact hall i hi
    · rw [if_neg h]
      exact hall i hi
  obtain ⟨h1, h2, h3⟩ := deleteImagesLoop_all_present images _ hnd hall1
  unfold deleteNextjsMarkdownFile
  rcases hloop : deleteImagesLoop
      (if fsHas fs thumbnailPath then fsRemove fs thumbnailPath else fs) images
    with ⟨fs2, b⟩
  rw [hloop] at h1 h2 h3
  simp only at h1 h2 h3
  subst h1
  refine ⟨rfl, fsHas_remove_self fs2 markdownPath, ?_, ?_⟩
  · rw [fsHas_remove_ne (fun hc => hmd_th hc.symm)]
    rw [Bool.eq_false_iff]
    intro hc
    obtain ⟨c, hc2⟩ := fsHas_iff_fsGet.mp hc
    rw [h3 thumbnailPath hth_img] at hc2
    have := fsHas_iff_fsGet.mpr ⟨c, hc2⟩
    rw [hth0] at this
    cases this
  · intro i hi
    rw [fsHas_remove_ne (fun hc => hmd_img (by rw [← hc]; exact hi))]
    exact h2 i hi

/-- C8: the retention cleaner deletes a published document (with its
thumbnail and every referenced inline image) exactly when its frontmatter
`created_at` parses as a date older than the fixed 30-day window: a
document dated exactly 31 days in the past is deleted with all its assets,
one dated 29 days in the past is untouched, and one without a parseable
`created_at` is skipped — all regardless of the time of day `now` holds. -/
theorem c8_cleanup_thirty_day_window
    (fs : FS) (content fm : Str) (y m d : Nat) (nowD t : Int)
    (markdownPath thumbnailPath : String) (images : List String) :
    (extractFrontmatter content = some fm → searchCreatedAt fm = some (y, m, d) →
      validDate y m d = true → civilDays y m d = nowD - 31 → 0 ≤ t → t < dayUs →
      markdownPath ∉ images → markdownPath ≠ thumbnailPath → thumbnailPath ∉ images →
      images.Nodup → (∀ i ∈ images, fsHas fs i = true) →
      ∃ fs2, cleanupFile fs content (nowD * dayUs + t) markdownPath thumbnailPath images
          = Except.ok (fs2, true) ∧
        fsHas fs2 markdownPath = false ∧ fsHas fs2 thumbnailPath = false ∧
        ∀ i ∈ images, fsHas fs2 i = false) ∧
    (extractFrontmatter content = some fm → searchCreatedAt fm = some (y, m, d) →
      validDate y m d = true → civilDays y m d = nowD - 29 → 0 ≤ t → t < dayUs →
      cleanupFile fs content (nowD * dayUs + t) markdownPath thumbnailPath images
        = Except.ok (fs, false)) ∧
    ((extractFrontmatter content = none ∨
        (extractFrontmatter content = some fm ∧ searchCreatedAt fm = none)) →
      ∀ nowUs : Int, cleanupFile fs content nowUs markdownPath thumbnailPath images
        = Except.ok (fs, false)) := by
  refine ⟨?_, ?_, ?_⟩
  · intro hfm hdate hvalid hday h0 ht hmd_img hmd_th hth_img hnd hall
    have hold : civilDays y m d * dayUs < (nowD * dayUs + t) - 30 * dayUs := by
      rw [hday, show dayUs = 86400000000 from rfl]
      omega
    have hdec : cleanupDecision content (nowD * dayUs + t) = Except.ok true := by
      unfold cleanupDecision
      simp [hfm, hdate, hvalid]
      exact hold
    obtain ⟨h1, h2, h3, h4⟩ := deleteNextjs_success fs markdownPath thumbnailPath images
      hmd_img hmd_th hth_img hnd hall
    refine ⟨(deleteNextjsMarkdownFile fs markdownPath thumbnailPath images).1, ?_, h2, h3, h4⟩
    unfold cleanupFile
    rw [hdec]
    rcases hdel : deleteNextjsMarkdownFile fs markdownPath thumbnailPath images with ⟨fs2, b⟩
    rw [hdel] at h1
    simp only at h1
    subst h1
    rfl
  · intro hfm hdate hvalid hday h0 ht
    have hnew : ¬ (civilDays y m d * dayUs < (nowD * dayUs + t) - 30 * dayUs) := by
      rw [show dayUs = 86400000000 from rfl] at ht ⊢
      rw [hday]
      omega
    have hdec : cleanupDecision content (nowD * dayUs + t) = Except.ok false := by
      unfold cleanupDecision
      simp [hfm, hdate, hvalid]
      omega
    unfold cleanupFile
    rw [hdec]
  · intro h nowUs
    rcases h with h | ⟨hfm, hdate⟩
    · have hdec : cleanupDecision content nowUs = Except.ok false := by
        unfold cleanupDecision
        simp [h]
      unfold cleanupFile
      rw [hdec]
    · have hdec : cleanupDecision content nowUs = Except.ok false := by
        unfold cleanupDecision
        simp [hfm, hdate]
      unfold cleanupFile
      rw [hdec]

/-- Witness for C8: a document dated exactly 31 days before `now` is
deleted together with its thumbnail and inline image. -/
theorem c8_cleanup_thirty_day_window_witness :
    ∃ fs2, cleanupFile
        [("content/a.md", []), ("pub/thumb.webp", []), ("pub/img.webp", [])]
        ("---\ncreated_at: \"2025-06-01 10:00:00\"\n---\nbody").data
        ((civilDays 2025 6 1 + 31) * dayUs + 0)
        "content/a.md" "pub/thumb.webp" ["pub/img.webp"] = Except.ok (fs2, true) ∧
      fsHas fs2 "content/a.md" = false ∧ fsHas fs2 "pub/thumb.webp" = false ∧
      ∀ i ∈ ["pub/img.webp"], fsHas fs2 i = false :=
  (c8_cleanup_thirty_day_window
      [("content/a.md", []), ("pub/thumb.webp", []), ("pub/img.webp", [])]
      ("---\ncreated_at: \"2025-06-01 10:00:00\"\n---\nbody").data
      ("\ncreated_at: \"2025-06-01 10:00:00\"\n").data
      2025 6 1 (civilDays 2025 6 1 + 31) 0
      "content/a.md" "pub/thumb.webp" ["pub/img.webp"]).1
    (by decide) (by decide) (by decide) (by omega) (by decide) (by decide)
    (by decide) (by decide) (by decide) (by decide) (by decide)
